import Mathlib

/-!
Verification of the ESTIN internal-regulation RAG system's structural chunker
(`src/data_processing/chunkers.py`), vector-store gateway (`src/vectorstore/store.py`)
and API helpers (`src/api/main.py`), via a shallow embedding over `List Char`.

Python regular-expression operations are rendered as explicit, structurally
recursive character scanners:
  * `re.split(r'(^[ ]*Article\s+\d+\s*:?)', text, re.MULTILINE)` → `articleSplit`
  * `section_pattern.finditer` / `subsection_pattern.finditer`  → `lastSectionMatch`,
    `lastSubsectionMatch` (only the last match matters: the Python loops overwrite
    the running context on every match)
  * the `re.sub` calls of `_clean_text` → `removePageMarkers`, `collapseNewlines`,
    `collapseSpaces`, `removeDigitLines`
Greedy matching with backtracking for the one pattern that needs it
(`[A-ZÉÈÀ\s]+$`, `\s+(.+)$`) is resolved into an explicit maximal-cut search
(`cutDownEol`, `cutDownNotEol`).
-/

/-- Python `\s` (ASCII range, which is all the repository's data uses):
space, tab, newline, carriage return, vertical tab, form feed.
Also the character class stripped by Python `str.strip()`. -/
def isPySpace (c : Char) : Bool :=
  c == ' ' || c == '\t' || c == '\n' || c == '\r' || c.toNat == 11 || c.toNat == 12

/-- Python `\d` / `str.isdigit()` on the ASCII range: `'0'..'9'`. -/
def isDigitChar (c : Char) : Bool :=
  48 ≤ c.toNat && c.toNat ≤ 57

/-- The character class `[A-ZÉÈÀ]` of `section_pattern`. -/
def isCapFR (c : Char) : Bool :=
  (65 ≤ c.toNat && c.toNat ≤ 90) || c == 'É' || c == 'È' || c == 'À'

/-- The character class `[A-ZÉÈÀ\s]` (tail of `section_pattern`'s group 2). -/
def isCapOrSpace (c : Char) : Bool :=
  isCapFR c || isPySpace c

/-- Python `str.strip()`: drop leading and trailing whitespace. -/
def pyStrip (l : List Char) : List Char :=
  ((l.dropWhile isPySpace).reverse.dropWhile isPySpace).reverse

/-- `lit.isPrefixOf l` written out: does `l` start with the literal `lit`? -/
def startsWithLit : List Char → List Char → Bool
  | [], _ => true
  | _ :: _, [] => false
  | p :: ps, c :: cs => p == c && startsWithLit ps cs

/-- The literal token `Article` (capital A) of `article_pattern` and of the
split pattern `^[ ]*Article\s+\d+\s*:?`. -/
def litArticle : List Char := ['A', 'r', 't', 'i', 'c', 'l', 'e']

/-- One attempted match of the split pattern `[ ]*Article\s+\d+\s*:?` at the
current position (the `^` line anchor is handled by the caller).  Returns the
matched text (the captured group of `re.split`) and the remainder.  All
quantifiers here are greedy and deterministic: the character classes of
adjacent parts are disjoint, so no backtracking can occur. -/
def matchArticleHeader (l : List Char) : Option (List Char × List Char) :=
  let sp := l.takeWhile (· == ' ')
  let r1 := l.dropWhile (· == ' ')
  if startsWithLit litArticle r1 then
    let r2 := r1.drop 7
    let ws := r2.takeWhile isPySpace
    if ws.isEmpty then none
    else
      let r3 := r2.dropWhile isPySpace
      let ds := r3.takeWhile isDigitChar
      if ds.isEmpty then none
      else
        let r4 := r3.dropWhile isDigitChar
        let ws2 := r4.takeWhile isPySpace
        match r4.dropWhile isPySpace with
        | ':' :: r6 => some (sp ++ litArticle ++ ws ++ ds ++ ws2 ++ [':'], r6)
        | r5 => some (sp ++ litArticle ++ ws ++ ds ++ ws2, r5)
  else none

/-- Scanner for `re.split(r'(^[ ]*Article\s+\d+\s*:?)', text, re.MULTILINE)`.
`skip` counts characters still inside an already-emitted match (a match is
consumed atomically, as `re.split` resumes scanning at the match end), `acc`
accumulates the current unmatched stretch in reverse, and `atStart` says
whether the current position is at the start of a line (position 0 or right
after a newline), where `^` matches. -/
def splitArticlesGo : Nat → List Char → List Char → Bool → List (List Char)
  | _, [], acc, _ => [acc.reverse]
  | Nat.succ skip, c :: cs, acc, _ => splitArticlesGo skip cs acc (c == '\n')
  | 0, c :: cs, acc, atStart =>
    if atStart then
      match matchArticleHeader (c :: cs) with
      | some (hdr, _) =>
        acc.reverse :: hdr :: splitArticlesGo (hdr.length - 1) cs [] (c == '\n')
      | none => splitArticlesGo 0 cs (c :: acc) (c == '\n')
    else splitArticlesGo 0 cs (c :: acc) (c == '\n')

/-- `parts = re.split(r'(^[ ]*Article\s+\d+\s*:?)', text, flags=re.MULTILINE)`
(chunkers.py line 51). Even positions are the unmatched stretches, odd
positions the captured article headers. -/
def articleSplit (text : List Char) : List (List Char) :=
  splitArticlesGo 0 text [] true

/-- Is the scan position at end-of-line (`$` in MULTILINE mode): end of input
or just before a newline? -/
def isAtEol : List Char → Bool
  | [] => true
  | c :: _ => c == '\n'

/-- Greedy-with-backtracking cut for `[A-ZÉÈÀ\s]+$`: the largest `k ≤ run.length`
(tried from `k` downwards, `k ≥ 1`) such that after consuming `run.take k` the
scan position `run.drop k ++ after` is at end-of-line. -/
def cutDownEol (run after : List Char) : Nat → Option Nat
  | 0 => none
  | Nat.succ k =>
    if isAtEol (run.drop (k + 1) ++ after) then some (k + 1)
    else cutDownEol run after k

/-- Greedy-with-backtracking cut for `\s+(.+)$`: the largest `k` such that after
consuming `k` whitespace characters the next character exists and is not a
newline (so that `.+` can match at least one character). -/
def cutDownNotEol (run after : List Char) : Nat → Option Nat
  | 0 => none
  | Nat.succ k =>
    if isAtEol (run.drop (k + 1) ++ after) then cutDownNotEol run after k
    else some (k + 1)

/-- One attempted match of `section_pattern = ^(\d+)\s+([A-ZÉÈÀ][A-ZÉÈÀ\s]+)$`
at a line start.  Returns (group 1, group 2, total match length).  The final
`+` is greedy over a class that includes whitespace (hence newlines), and `$`
forces backtracking to the largest end position that sits at an end-of-line. -/
def matchSectionAt (l : List Char) : Option (List Char × List Char × Nat) :=
  let ds := l.takeWhile isDigitChar
  if ds.isEmpty then none
  else
    let r1 := l.dropWhile isDigitChar
    let w1 := r1.takeWhile isPySpace
    if w1.isEmpty then none
    else
      match r1.dropWhile isPySpace with
      | [] => none
      | c0 :: r3 =>
        if isCapFR c0 then
          let run := r3.takeWhile isCapOrSpace
          let after := r3.dropWhile isCapOrSpace
          match cutDownEol run after run.length with
          | none => none
          | some k => some (ds, c0 :: run.take k, ds.length + w1.length + 1 + k)
        else none

/-- One attempted match of `subsection_pattern = ^(\d+\.\d+)\s+(.+)$` at a line
start.  Returns (group 1, group 2, total match length).  `.` does not match
newlines, so group 2 runs to the end of the line; the `\s+` before it may have
to give characters back so that `.+` is nonempty. -/
def matchSubsectionAt (l : List Char) : Option (List Char × List Char × Nat) :=
  let ds1 := l.takeWhile isDigitChar
  if ds1.isEmpty then none
  else
    match l.dropWhile isDigitChar with
    | '.' :: r2 =>
      let ds2 := r2.takeWhile isDigitChar
      if ds2.isEmpty then none
      else
        let r3 := r2.dropWhile isDigitChar
        let w := r3.takeWhile isPySpace
        let after := r3.dropWhile isPySpace
        if w.isEmpty then none
        else
          match cutDownNotEol w after w.length with
          | none => none
          | some k =>
            let tail := w.drop k ++ after
            let g2 := tail.takeWhile (· != '\n')
            some (ds1 ++ '.' :: ds2, g2, ds1.length + 1 + ds2.length + k + g2.length)
    | _ => none

/-- `section_pattern.finditer` keeping only the last match's groups (the Python
`for` loops overwrite `current_section_num` / `current_section` each time).
Same skip/line-start scanning discipline as `splitArticlesGo`. -/
def sectionScanGo : Nat → List Char → Bool → Option (List Char × List Char) →
    Option (List Char × List Char)
  | _, [], _, best => best
  | Nat.succ skip, c :: cs, _, best => sectionScanGo skip cs (c == '\n') best
  | 0, c :: cs, atStart, best =>
    if atStart then
      match matchSectionAt (c :: cs) with
      | some (g1, g2, n) => sectionScanGo (n - 1) cs (c == '\n') (some (g1, g2))
      | none => sectionScanGo 0 cs (c == '\n') best
    else sectionScanGo 0 cs (c == '\n') best

/-- `subsection_pattern.finditer` keeping only the last match's groups. -/
def subsectionScanGo : Nat → List Char → Bool → Option (List Char × List Char) →
    Option (List Char × List Char)
  | _, [], _, best => best
  | Nat.succ skip, c :: cs, _, best => subsectionScanGo skip cs (c == '\n') best
  | 0, c :: cs, atStart, best =>
    if atStart then
      match matchSubsectionAt (c :: cs) with
      | some (g1, g2, n) => subsectionScanGo (n - 1) cs (c == '\n') (some (g1, g2))
      | none => subsectionScanGo 0 cs (c == '\n') best
    else subsectionScanGo 0 cs (c == '\n') best

/-- Groups of the last `section_pattern` match in a segment, if any. -/
def lastSectionMatch (seg : List Char) : Option (List Char × List Char) :=
  sectionScanGo 0 seg true none

/-- Groups of the last `subsection_pattern` match in a segment, if any. -/
def lastSubsectionMatch (seg : List Char) : Option (List Char × List Char) :=
  subsectionScanGo 0 seg true none

/-- The mutable parse state of `_parse_document_structure` (lines 34-38):
the running section/subsection context, updated in document order. -/
structure DocumentContext where
  current_section_num : List Char
  current_section : List Char
  current_subsection_num : List Char
  current_subsection : List Char
deriving DecidableEq, Repr

/-- The empty initial context. -/
def emptyContext : DocumentContext := ⟨[], [], [], []⟩

/-- The two update loops run over a segment (intro: lines 58-64; article body:
lines 86-92): every section match overwrites the section fields and every
subsection match overwrites the subsection fields, so the segment's last match
of each pattern wins; a segment without matches leaves the fields unchanged.
Group 2 is stripped, group 1 is kept as is. -/
def updateContext (ctx : DocumentContext) (seg : List Char) : DocumentContext :=
  let ctx1 := match lastSectionMatch seg with
    | some (num, title) => { ctx with current_section_num := num, current_section := pyStrip title }
    | none => ctx
  match lastSubsectionMatch seg with
  | some (num, title) => { ctx1 with current_subsection_num := num, current_subsection := pyStrip title }
  | none => ctx1

/-- `re.match(r'Article\s+(\d+)', article_header)` (line 82): anchored at the
very start of the header string (so a header with leading spaces does NOT
match), returning group 1.  -/
def matchArticleNum (h : List Char) : Option (List Char) :=
  if startsWithLit litArticle h then
    let r := h.drop 7
    let ws := r.takeWhile isPySpace
    if ws.isEmpty then none
    else
      let ds := (r.dropWhile isPySpace).takeWhile isDigitChar
      if ds.isEmpty then none else some ds
  else none

/-- The `article_number` metadata value: Python keeps
`int(article_num) if article_num.isdigit() else article_num`, so it is either
an int or a string (`"?"` when the header did not re-match). -/
inductive ArticleNumber where
  | int (n : Nat)
  | str (s : List Char)
deriving DecidableEq, Repr

/-- Python `str.isdigit()`: nonempty and all digits. -/
def pyIsDigit (s : List Char) : Bool :=
  !s.isEmpty && s.all isDigitChar

/-- Python `int(...)` on a digit string: base-10 value. -/
def digitsToNat (s : List Char) : Nat :=
  s.foldl (fun a c => 10 * a + (c.toNat - 48)) 0

/-- `int(article_num) if article_num.isdigit() else article_num` (line 113). -/
def toArticleNumber (s : List Char) : ArticleNumber :=
  if pyIsDigit s then .int (digitsToNat s) else .str s

/-- One attempted match of `\[PAGE \d+\]` at the current position (for the
`re.sub` of `_clean_text` line 150). Returns the match length. -/
def matchPageMarker (l : List Char) : Option Nat :=
  if startsWithLit ('[' :: 'P' :: 'A' :: 'G' :: 'E' :: [' ']) l then
    let r := l.drop 6
    let ds := r.takeWhile isDigitChar
    if ds.isEmpty then none
    else
      match r.dropWhile isDigitChar with
      | ']' :: _ => some (6 + ds.length + 1)
      | _ => none
  else none

/-- `re.sub(r'\[PAGE \d+\]', '', text)`: scan left to right, delete every
(non-overlapping) page marker.  `skip` counts characters still inside an
already-deleted match. -/
def removePageMarkersGo : Nat → List Char → List Char
  | _, [] => []
  | Nat.succ skip, _ :: cs => removePageMarkersGo skip cs
  | 0, c :: cs =>
    match matchPageMarker (c :: cs) with
    | some n => removePageMarkersGo (n - 1) cs
    | none => c :: removePageMarkersGo 0 cs

/-- `re.sub(r'\[PAGE \d+\]', '', text)` (line 150). -/
def removePageMarkers (l : List Char) : List Char :=
  removePageMarkersGo 0 l

/-- Streaming form of `re.sub(r'\n{3,}', '\n\n', text)`: `cnt` is the length of
the newline run read so far; a maximal run of `n` newlines comes out as
`min n 2` newlines (runs of 1 or 2 are untouched, larger runs become 2). -/
def collapseNewlinesGo : Nat → List Char → List Char
  | cnt, [] => List.replicate (min cnt 2) '\n'
  | cnt, c :: rest =>
    if c == '\n' then collapseNewlinesGo (cnt + 1) rest
    else List.replicate (min cnt 2) '\n' ++ c :: collapseNewlinesGo 0 rest

/-- `re.sub(r'\n{3,}', '\n\n', text)` (line 153). -/
def collapseNewlines (l : List Char) : List Char :=
  collapseNewlinesGo 0 l

/-- Streaming form of `re.sub(r' {2,}', ' ', text)`: a maximal run of `n`
spaces comes out as `min n 1` spaces. -/
def collapseSpacesGo : Nat → List Char → List Char
  | cnt, [] => List.replicate (min cnt 1) ' '
  | cnt, c :: rest =>
    if c == ' ' then collapseSpacesGo (cnt + 1) rest
    else List.replicate (min cnt 1) ' ' ++ c :: collapseSpacesGo 0 rest

/-- `re.sub(r' {2,}', ' ', text)` (line 154). -/
def collapseSpaces (l : List Char) : List Char :=
  collapseSpacesGo 0 l

/-- Streaming form of `re.sub(r'^\d+$', '', text, flags=re.MULTILINE)`.
State `some dsRev`: every character since the current line start was a digit,
and `dsRev` holds those digits in reverse — they are deleted if the line ends
now, flushed unchanged as soon as a non-digit appears.  State `none`: the
current line cannot match any more; copy it through. -/
def removeDigitLinesGo : Option (List Char) → List Char → List Char
  | some _, [] => []
  | some dsRev, c :: rest =>
    if c == '\n' then '\n' :: removeDigitLinesGo (some []) rest
    else if isDigitChar c then removeDigitLinesGo (some (c :: dsRev)) rest
    else dsRev.reverse ++ c :: removeDigitLinesGo none rest
  | none, [] => []
  | none, c :: rest =>
    if c == '\n' then '\n' :: removeDigitLinesGo (some []) rest
    else c :: removeDigitLinesGo none rest

/-- `re.sub(r'^\d+$', '', text, flags=re.MULTILINE)` (line 157): a line made
purely of digits is emptied (its newline stays). -/
def removeDigitLines (l : List Char) : List Char :=
  removeDigitLinesGo (some []) l

/-- `_clean_text` (chunkers.py lines 148-159): strip page markers, collapse 3+
newlines to 2, collapse 2+ spaces to 1, empty the pure-digit lines, then strip. -/
def clean_text (text : List Char) : List Char :=
  let t1 := removePageMarkers text
  let t2 := collapseNewlines t1
  let t3 := collapseSpaces t2
  let t4 := removeDigitLines t3
  pyStrip t4

/-- `f"[Section {section_num}: {section_title}]"` (line 140). -/
def sectionLine (num title : List Char) : List Char :=
  ('[' :: 'S' :: 'e' :: 'c' :: 't' :: 'i' :: 'o' :: 'n' :: [' ']) ++ num ++
    (':' :: [' ']) ++ title ++ [']']

/-- `f"[Sous-section {subsection_num}: {subsection_title}]"` (line 143). -/
def subsectionLine (num title : List Char) : List Char :=
  ('[' :: 'S' :: 'o' :: 'u' :: 's' :: '-' :: 's' :: 'e' :: 'c' :: 't' :: 'i' ::
    'o' :: 'n' :: [' ']) ++ num ++ (':' :: [' ']) ++ title ++ [']']

/-- `_build_context_header` (lines 130-145): one line per pair whose number AND
title are both non-empty (Python truthiness), joined with a newline. -/
def build_context_header (section_num section_title subsection_num subsection_title :
    List Char) : List Char :=
  let parts : List (List Char) :=
    (if !section_num.isEmpty && !section_title.isEmpty then
      [sectionLine section_num section_title] else []) ++
    (if !subsection_num.isEmpty && !subsection_title.isEmpty then
      [subsectionLine subsection_num subsection_title] else [])
  (parts.intersperse ['\n']).flatten

/-- The chunk-content composition (lines 95-102): with context, the context
header, a blank line, then the stripped header and stripped body concatenated;
without context just the stripped header and body. -/
def composeContent (include_section_context : Bool) (ctx : DocumentContext)
    (article_header article_body : List Char) : List Char :=
  if include_section_context then
    build_context_header ctx.current_section_num ctx.current_section
        ctx.current_subsection_num ctx.current_subsection ++
      '\n' :: '\n' :: (pyStrip article_header ++ pyStrip article_body)
  else pyStrip article_header ++ pyStrip article_body

/-- One emitted retrieval unit (a langchain `Document` restricted to the
metadata fields `_parse_document_structure` itself sets; the `**base_metadata`
spread — source path and file name, constant across chunks — is omitted). -/
structure ArticleChunk where
  page_content : List Char
  article_number : ArticleNumber
  section_number : List Char
  section_title : List Char
  subsection_number : List Char
  subsection_title : List Char
deriving DecidableEq, Repr

/-- One iteration of the article loop (lines 69-123) on a (header, body) pair:
the defensive `startswith('Article')` re-check (a failure skips the pair
without touching the context), the number extraction, the context update from
the body, composition, cleaning, and the >50 length gate.  Returns the emitted
chunk (if any) and the context to carry to the next pair. -/
def processPair (include_section_context : Bool) (ctx : DocumentContext)
    (article_header article_body : List Char) : Option ArticleChunk × DocumentContext :=
  if startsWithLit litArticle (pyStrip article_header) then
    let article_num := match matchArticleNum article_header with
      | some ds => ds
      | none => ['?']
    let ctx' := updateContext ctx article_body
    let chunk_content :=
      clean_text (composeContent include_section_context ctx' article_header article_body)
    if 50 < (pyStrip chunk_content).length then
      (some { page_content := chunk_content
              article_number := toArticleNumber article_num
              section_number := ctx'.current_section_num
              section_title := ctx'.current_section
              subsection_number := ctx'.current_subsection_num
              subsection_title := ctx'.current_subsection }, ctx')
    else (none, ctx')
  else (none, ctx)

/-- The whole article loop over the (header, body) pairs. -/
def processPairs (include_section_context : Bool) (ctx : DocumentContext) :
    List (List Char × List Char) → List ArticleChunk
  | [] => []
  | (h, b) :: rest =>
    match processPair include_section_context ctx h b with
    | (some chunk, ctx') => chunk :: processPairs include_section_context ctx' rest
    | (none, ctx') => processPairs include_section_context ctx' rest

/-- `while i < len(parts): ... parts[i], parts[i+1] ... i += 2` starting at
`i = 1`: pair the split's pieces after the intro; a trailing unpaired piece
(impossible for `re.split` output, which has odd length) would be dropped,
matching the `if i + 1 < len(parts)` guard. -/
def pairUp : List (List Char) → List (List Char × List Char)
  | a :: b :: rest => (a, b) :: pairUp rest
  | _ => []

/-- `_parse_document_structure(text, base_metadata, include_section_context)`
(lines 26-127), with the constant `base_metadata` spread omitted from the
chunk model. -/
def parse_document_structure (text : List Char) (include_section_context : Bool) :
    List ArticleChunk :=
  match articleSplit text with
  | [] => []
  | intro :: rest =>
    processPairs include_section_context (updateContext emptyContext intro) (pairUp rest)

/-- Decimal digits of a natural number, with structural fuel (`n` itself
bounds the number of divisions by ten). -/
def natReprAux : Nat → Nat → List Char
  | 0, _ => []
  | fuel + 1, n =>
    if n < 10 then [Char.ofNat (48 + n)]
    else natReprAux fuel (n / 10) ++ [Char.ofNat (48 + n % 10)]

/-- Decimal digits of a natural number (the digits `re.split` captures for a
boundary written `Article k:`). -/
def natRepr (n : Nat) : List Char :=
  natReprAux (n + 1) n

/-- A loader page: `Document(page_content=…, metadata={"page": …})` as produced
by `load_estin_regulations`. -/
structure Page where
  page : Nat
  page_content : List Char
deriving DecidableEq, Repr

/-- `get_full_text` (loaders.py lines 39-47): concatenate the pages, each
preceded by its `\n\n[PAGE <n>]\n\n` marker, then strip. -/
def get_full_text (documents : List Page) : List Char :=
  pyStrip (documents.foldl
    (fun acc d =>
      acc ++ ('\n' :: '\n' :: '[' :: 'P' :: 'A' :: 'G' :: 'E' :: [' ']) ++
        natRepr d.page ++ (']' :: '\n' :: ['\n']) ++ d.page_content)
    [])

/-- `chunk_by_articles` (chunkers.py lines 8-23): combine the pages and parse
(the chunk count print and the `base_metadata` spread carry no chunk-relevant
information and are omitted). -/
def chunk_by_articles (documents : List Page) (include_section_context : Bool) :
    List ArticleChunk :=
  parse_document_structure (get_full_text documents) include_section_context

/-- Would the split scanner fire anywhere inside `l` when entered with
line-start flag `b`?  (`hasBoundary b l = false` says `l`, scanned on its own,
contains no `^[ ]*Article\s+\d+\s*:?` match.) -/
def hasBoundary : Bool → List Char → Bool
  | _, [] => false
  | b, c :: cs => (b && (matchArticleHeader (c :: cs)).isSome) || hasBoundary (c == '\n') cs

/-- A canonical well-formed boundary line `Article k:` (capital A, one space,
decimal number, colon), as quoted by the spec's testable property. -/
def mkBoundary (k : Nat) : List Char :=
  litArticle ++ ' ' :: natRepr k ++ [':']

/-- The elements at odd positions 1, 3, 5, … — for `re.split` output with a
capturing group, exactly the matched boundary pieces. -/
def oddIdx {α : Type} : List α → List α
  | _ :: b :: rest => b :: oddIdx rest
  | _ => []

/-- Context carried across one (header, body) pair of the article loop: the
body updates the context unless the defensive re-check skipped the pair. -/
def stepPairContext (ctx : DocumentContext) (p : List Char × List Char) : DocumentContext :=
  if startsWithLit litArticle (pyStrip p.1) then updateContext ctx p.2 else ctx

/-- Spec-side reading of step (e) of the chunker algorithm: "collapse 3+
consecutive newlines to exactly 2", phrased run by run. -/
def specCollapseNewlines : List Char → List Char
  | [] => []
  | c :: cs =>
    if c == '\n' then
      let runTail := cs.takeWhile (· == '\n')
      (if 3 ≤ runTail.length + 1 then ['\n', '\n'] else '\n' :: runTail) ++
        specCollapseNewlines (cs.dropWhile (· == '\n'))
    else c :: specCollapseNewlines cs
termination_by l => l.length
decreasing_by
  · simpa using Nat.lt_succ_of_le (List.dropWhile_sublist (· == '\n')).length_le
  · simp

/-- Spec-side reading of "collapse runs of 2+ spaces to 1", run by run. -/
def specCollapseSpaces : List Char → List Char
  | [] => []
  | c :: cs =>
    if c == ' ' then
      let runTail := cs.takeWhile (· == ' ')
      (if 2 ≤ runTail.length + 1 then [' '] else ' ' :: runTail) ++
        specCollapseSpaces (cs.dropWhile (· == ' '))
    else c :: specCollapseSpaces cs
termination_by l => l.length
decreasing_by
  · simpa using Nat.lt_succ_of_le (List.dropWhile_sublist (· == ' ')).length_le
  · simp

/-- Split into lines at newline characters (an empty text is one empty line,
a trailing newline yields a trailing empty line). -/
def splitLines : List Char → List (List Char)
  | [] => [[]]
  | c :: cs =>
    if c == '\n' then [] :: splitLines cs
    else match splitLines cs with
      | [] => [[c]]
      | ln :: lns => (c :: ln) :: lns

/-- Rejoin lines with newlines (inverse of `splitLines`). -/
def joinLines (lns : List (List Char)) : List Char :=
  (lns.intersperse ['\n']).flatten

/-- One line of the digit-line removal: a nonempty line made purely of digits
is emptied, every other line is kept. -/
def digitLineF (ln : List Char) : List Char :=
  if !ln.isEmpty && ln.all isDigitChar then [] else ln

/-- Spec-side reading of "remove any line that is purely digits": map over the
lines, emptying each nonempty all-digit line. -/
def specRemoveDigitLines (t : List Char) : List Char :=
  joinLines ((splitLines t).map digitLineF)

/-- The digit-line removal once the current line is known not to match
(`removeDigitLinesGo`'s `none` state): the first line is kept as is, the
remaining lines are processed normally. -/
def keepFirstLine (t : List Char) : List Char :=
  match splitLines t with
  | [] => []
  | ln :: lns => joinLines (ln :: lns.map digitLineF)

/-- The cleaning pipeline exactly as the spec words it (step (e) of §4.1):
strip page markers, collapse 3+ newlines to 2, collapse 2+ spaces to 1,
erase pure-digit lines, trim. -/
def specCleanPipeline (t : List Char) : List Char :=
  pyStrip (specRemoveDigitLines (specCollapseSpaces (specCollapseNewlines
    (removePageMarkers t))))

/-- A document coming back from `vector_store.similarity_search`, as consumed
by `_extract_sources` (main.py lines 234-244): its `page_content` and the
metadata fields the API copies out (`metadata.get` returns `None` when the
key is missing, hence the options). -/
structure RetrievedDoc where
  page_content : List Char
  article_number : Option ArticleNumber
  section_number : Option (List Char)
  section_title : Option (List Char)
deriving DecidableEq, Repr

/-- The API `SourceDocument` model (main.py lines 37-43). -/
structure SourceDocument where
  content : List Char
  article_number : Option ArticleNumber
  section_number : Option (List Char)
  section_title : Option (List Char)
deriving DecidableEq, Repr

/-- `doc.page_content[:500] + "..." if len(doc.page_content) > 500 else
doc.page_content` (main.py line 240). -/
def sourcePreview (s : List Char) : List Char :=
  if 500 < s.length then s.take 500 ++ ('.' :: '.' :: ['.']) else s

/-- The `SourceDocument(...)` built from one retrieved document. -/
def toSourceDocument (d : RetrievedDoc) : SourceDocument :=
  { content := sourcePreview d.page_content
    article_number := d.article_number
    section_number := d.section_number
    section_title := d.section_title }

/-- `_extract_sources` (main.py lines 225-246).  A message is modelled by its
optional `artifact` (the raw chunk list a retrieval tool call carried; `none`
for messages without one).  Python's `if hasattr(msg, 'artifact') and
msg.artifact` skips both missing and empty (falsy) artifacts; every appended
document is truncated to a 500-character preview.  No deduplication happens. -/
def extract_sources (messages : List (Option (List RetrievedDoc))) : List SourceDocument :=
  messages.foldl
    (fun sources msg =>
      match msg with
      | none => sources
      | some [] => sources
      | some docs => sources ++ docs.map toSourceDocument)
    []

/-- A concrete retrieved chunk used to exercise `_extract_sources`. -/
def exampleRetrievedDoc : RetrievedDoc :=
  { page_content := ('A' :: 'r' :: 't' :: 'i' :: 'c' :: 'l' :: 'e' :: ' ' :: ['1'])
    article_number := some (.int 1)
    section_number := some ['5']
    section_title := none }

/-- A Pinecone index as far as `create_index_if_not_exists` observes it. -/
structure PineconeIndex where
  name : List Char
  dimension : Nat
  metric : List Char
  cloud : List Char
  region : List Char
deriving DecidableEq, Repr

/-- `[idx.name for idx in pc.list_indexes()]` (store.py line 34): the client's
current index list, modelled as explicit state. -/
def list_indexes (st : List PineconeIndex) : List (List Char) :=
  st.map (·.name)

/-- `pc.create_index(...)` (store.py lines 38-43), modelled as appending the
new index to the client state. -/
def create_index (st : List PineconeIndex) (idx : PineconeIndex) : List PineconeIndex :=
  st ++ [idx]

/-- `create_index_if_not_exists` (store.py lines 25-46).  Returns the new
client state and whether the create path ran (`true` → the "created
successfully" report, `false` → the "already exists" report). -/
def create_index_if_not_exists (st : List PineconeIndex) (index_name : List Char)
    (dimension : Nat) (metric cloud region : List Char) : List PineconeIndex × Bool :=
  if index_name ∈ list_indexes st then (st, false)
  else (create_index st ⟨index_name, dimension, metric, cloud, region⟩, true)

/-- `thread_id = request.thread_id or str(uuid4())` (main.py line 194), the
value `ask_question` then hands to the agent and echoes back in
`AnswerResponse.thread_id` (line 210).  Python `or` is truthiness-based: both
a missing (`None`) and an empty-string `thread_id` fall through to the
freshly generated UUID (passed here as `fresh_uuid`). -/
def resolve_thread_id (request_thread_id : Option (List Char)) (fresh_uuid : List Char) :
    List Char :=
  match request_thread_id with
  | none => fresh_uuid
  | some s => if s.isEmpty then fresh_uuid else s

theorem takeWhile_dropWhile_app (p : Char → Bool) (l₁ l₂ : List Char)
    (h1 : ∀ a ∈ l₁, p a = true) (h2 : ∀ c, l₂.head? = some c → p c = false) :
    (l₁ ++ l₂).takeWhile p = l₁ ∧ (l₁ ++ l₂).dropWhile p = l₂ := by
  induction l₁ with
  | nil =>
    simp only [List.nil_append]
    cases l₂ with
    | nil => simp [List.takeWhile, List.dropWhile]
    | cons c cs =>
      have hc : p c = false := h2 c rfl
      simp [List.takeWhile, List.dropWhile, hc]
  | cons a l ih =>
    have ha : p a = true := h1 a (by simp)
    have ih' := ih (fun x hx => h1 x (by simp [hx]))
    simp [List.takeWhile, List.dropWhile, ha, ih'.1, ih'.2]

theorem takeWhile_dropWhile_app_inner (p : Char → Bool) (l₁ l₂ : List Char)
    (h : l₁.dropWhile p ≠ []) :
    (l₁ ++ l₂).takeWhile p = l₁.takeWhile p ∧
      (l₁ ++ l₂).dropWhile p = l₁.dropWhile p ++ l₂ := by
  induction l₁ with
  | nil => simp [List.dropWhile] at h
  | cons a l ih =>
    by_cases ha : p a = true
    · have h' : l.dropWhile p ≠ [] := by
        simpa [List.dropWhile, ha] using h
      have := ih h'
      simp [List.takeWhile, List.dropWhile, ha, this.1, this.2]
    · have ha' : p a = false := by simpa using ha
      simp [List.takeWhile, List.dropWhile, ha']

theorem startsWithLit_iff (p l : List Char) :
    startsWithLit p l = true ↔ ∃ t, l = p ++ t := by
  induction p generalizing l with
  | nil => simp [startsWithLit]
  | cons a ps ih =>
    cases l with
    | nil =>
      simp only [startsWithLit]
      constructor
      · intro h; cases h
      · rintro ⟨t, ht⟩; cases ht
    | cons c cs =>
      simp only [startsWithLit, Bool.and_eq_true, beq_iff_eq, ih]
      constructor
      · rintro ⟨rfl, t, rfl⟩; exact ⟨t, rfl⟩
      · rintro ⟨t, ht⟩
        injection ht with h1 h2
        exact ⟨h1.symm, t, h2⟩

theorem startsWithLit_append (p t : List Char) : startsWithLit p (p ++ t) = true :=
  (startsWithLit_iff p (p ++ t)).mpr ⟨t, rfl⟩

theorem isPySpace_toNat {c : Char} (h : isPySpace c = true) :
    c.toNat = 32 ∨ c.toNat = 9 ∨ c.toNat = 10 ∨ c.toNat = 13 ∨ c.toNat = 11 ∨
      c.toNat = 12 := by
  simp only [isPySpace, Bool.or_eq_true, beq_iff_eq] at h
  rcases h with ((((h | h) | h) | h) | h) | h
  · exact Or.inl (by rw [h]; rfl)
  · exact Or.inr (Or.inl (by rw [h]; rfl))
  · exact Or.inr (Or.inr (Or.inl (by rw [h]; rfl)))
  · exact Or.inr (Or.inr (Or.inr (Or.inl (by rw [h]; rfl))))
  · exact Or.inr (Or.inr (Or.inr (Or.inr (Or.inl h))))
  · exact Or.inr (Or.inr (Or.inr (Or.inr (Or.inr h))))

theorem isDigitChar_toNat {c : Char} (h : isDigitChar c = true) :
    48 ≤ c.toNat ∧ c.toNat ≤ 57 := by
  simpa [isDigitChar, Nat.le_div_iff_mul_le] using h

theorem not_pySpace_of_digit {c : Char} (h : isDigitChar c = true) :
    isPySpace c = false := by
  cases hs : isPySpace c with
  | false => rfl
  | true =>
    have h1 := isDigitChar_toNat h
    have h2 := isPySpace_toNat hs
    omega

theorem not_digit_of_pySpace {c : Char} (h : isPySpace c = true) :
    isDigitChar c = false := by
  cases hd : isDigitChar c with
  | false => rfl
  | true =>
    have h1 := isDigitChar_toNat hd
    have h2 := isPySpace_toNat h
    omega

theorem dropWhile_eq_self_of_head {p : Char → Bool} {l : List Char}
    (h : ∀ c, l.head? = some c → p c = false) : l.dropWhile p = l := by
  cases l with
  | nil => rfl
  | cons c cs => simp [List.dropWhile_cons, h c rfl]

theorem takeWhile_eq_nil_of_head {p : Char → Bool} {l : List Char}
    (h : ∀ c, l.head? = some c → p c = false) : l.takeWhile p = [] := by
  cases l with
  | nil => rfl
  | cons c cs => simp [List.takeWhile_cons, h c rfl]

theorem pyStrip_eq_self {l : List Char}
    (h1 : ∀ c, l.head? = some c → isPySpace c = false)
    (h2 : ∀ c, l.getLast? = some c → isPySpace c = false) : pyStrip l = l := by
  unfold pyStrip
  rw [dropWhile_eq_self_of_head h1, dropWhile_eq_self_of_head (by
    intro c hc
    exact h2 c (by rwa [List.head?_reverse] at hc)), List.reverse_reverse]

theorem natReprAux_spec : ∀ (fuel n : Nat), n < fuel →
    natReprAux fuel n ≠ [] ∧ (∀ c ∈ natReprAux fuel n, isDigitChar c = true) ∧
      digitsToNat (natReprAux fuel n) = n := by
  intro fuel
  induction fuel with
  | zero => intro n hn; omega
  | succ fuel ih =>
    intro n hn
    rw [natReprAux]
    by_cases h : n < 10
    · simp only [h, if_pos]
      have hval : (Char.ofNat (48 + n)).toNat = 48 + n := by interval_cases n <;> decide
      refine ⟨by simp, ?_, ?_⟩
      · intro c hc
        simp only [List.mem_singleton] at hc
        subst hc
        simp only [isDigitChar, hval]
        simp only [Bool.and_eq_true, decide_eq_true_eq]
        omega
      · simp [digitsToNat, hval]
    · simp only [h, if_neg, not_false_iff]
      have hd : n / 10 < fuel := by
        have := Nat.div_lt_self (show 0 < n by omega) (show 1 < 10 by omega)
        omega
      obtain ⟨hne, hdig, hval⟩ := ih (n / 10) hd
      have hm : n % 10 < 10 := Nat.mod_lt _ (by omega)
      have hvalc : (Char.ofNat (48 + n % 10)).toNat = 48 + n % 10 := by
        have := hm; interval_cases hh : (n % 10) <;> simp [hh]
      refine ⟨by simp, ?_, ?_⟩
      · intro c hc
        rcases List.mem_append.mp hc with hc | hc
        · exact hdig c hc
        · simp only [List.mem_singleton] at hc
          subst hc
          simp only [isDigitChar, hvalc]
          simp only [Bool.and_eq_true, decide_eq_true_eq]
          omega
      · have hfold : digitsToNat (natReprAux fuel (n / 10) ++ [Char.ofNat (48 + n % 10)]) =
            10 * digitsToNat (natReprAux fuel (n / 10)) +
              ((Char.ofNat (48 + n % 10)).toNat - 48) := by
          simp [digitsToNat, List.foldl_append]
        rw [hfold, hval, hvalc]
        omega

theorem natRepr_spec (n : Nat) :
    natRepr n ≠ [] ∧ (∀ c ∈ natRepr n, isDigitChar c = true) ∧
      digitsToNat (natRepr n) = n :=
  natReprAux_spec (n + 1) n (Nat.lt_succ_self n)

theorem natRepr_head_digit (n : Nat) :
    ∀ c, (natRepr n).head? = some c → isDigitChar c = true := by
  intro c hc
  exact (natRepr_spec n).2.1 c (List.mem_of_mem_head? hc)

theorem matchArticleHeader_mkBoundary (k : Nat) (rest : List Char) :
    matchArticleHeader (mkBoundary k ++ rest) = some (mkBoundary k, rest) := by
  have hrepr := natRepr_spec k
  have harr : mkBoundary k ++ rest =
      litArticle ++ (' ' :: (natRepr k ++ ':' :: rest)) := by
    simp [mkBoundary, litArticle]
  rw [harr]
  have hA : (litArticle ++ (' ' :: (natRepr k ++ ':' :: rest))).takeWhile (· == ' ') = [] := by
    apply takeWhile_eq_nil_of_head
    intro c hc
    simp only [litArticle, List.cons_append, List.head?_cons, Option.some.injEq] at hc
    subst hc; decide
  have hA' : (litArticle ++ (' ' :: (natRepr k ++ ':' :: rest))).dropWhile (· == ' ') =
      litArticle ++ (' ' :: (natRepr k ++ ':' :: rest)) := by
    apply dropWhile_eq_self_of_head
    intro c hc
    simp only [litArticle, List.cons_append, List.head?_cons, Option.some.injEq] at hc
    subst hc; decide
  have hdrop : (litArticle ++ (' ' :: (natRepr k ++ ':' :: rest))).drop 7 =
      ' ' :: (natRepr k ++ ':' :: rest) := by
    have : (7 : Nat) = litArticle.length := rfl
    rw [this, List.drop_left]
  have hws := takeWhile_dropWhile_app isPySpace [' '] (natRepr k ++ ':' :: rest)
    (by intro a ha; simp at ha; subst ha; rfl)
    (by
      intro c hc
      cases hn : natRepr k with
      | nil => exact absurd hn hrepr.1
      | cons d ds =>
        rw [hn] at hc
        simp only [List.cons_append, List.head?_cons, Option.some.injEq] at hc
        subst hc
        exact not_pySpace_of_digit (hrepr.2.1 d (by rw [hn]; simp)))
  have hws1 : (' ' :: (natRepr k ++ ':' :: rest)).takeWhile isPySpace = [' '] := by
    simpa using hws.1
  have hws2 : (' ' :: (natRepr k ++ ':' :: rest)).dropWhile isPySpace =
      natRepr k ++ ':' :: rest := by simpa using hws.2
  have hds := takeWhile_dropWhile_app isDigitChar (natRepr k) (':' :: rest)
    (fun a ha => hrepr.2.1 a ha)
    (by intro c hc; simp only [List.head?_cons, Option.some.injEq] at hc; subst hc; decide)
  have hne : (natRepr k).isEmpty = false := by
    cases hn : natRepr k with
    | nil => exact absurd hn hrepr.1
    | cons d ds => rfl
  have hw2 : (':' :: rest).takeWhile isPySpace = [] := by
    apply takeWhile_eq_nil_of_head
    intro c hc
    simp only [List.head?_cons, Option.some.injEq] at hc
    subst hc; decide
  have hw2' : (':' :: rest).dropWhile isPySpace = ':' :: rest := by
    apply dropWhile_eq_self_of_head
    intro c hc
    simp only [List.head?_cons, Option.some.injEq] at hc
    subst hc; decide
  simp only [matchArticleHeader, hA, hA', startsWithLit_append, if_true, hdrop,
    hws1, hws2, List.isEmpty_cons, Bool.false_eq_true, if_false, hds.1, hds.2,
    hne, hw2, hw2']
  simp [mkBoundary, litArticle]

theorem startsWithLit_append_false {p l : List Char} (r : List Char) {c₀ : Char}
    (hl : l ≠ []) (hlast : l.getLast? = some c₀) (hc₀ : c₀ ∉ p)
    (h : startsWithLit p l = false) : startsWithLit p (l ++ r) = false := by
  induction p generalizing l with
  | nil => simp [startsWithLit] at h
  | cons a ps ih =>
    cases l with
    | nil => exact absurd rfl hl
    | cons c cs =>
      simp only [startsWithLit, Bool.and_eq_false_iff] at h ⊢
      rcases h with h | h
      · exact Or.inl h
      · by_cases hac : (a == c) = true
        · right
          cases cs with
          | nil =>
            simp only [List.getLast?_singleton, Option.some.injEq] at hlast
            subst hlast
            rw [beq_iff_eq] at hac
            subst hac
            exact absurd (List.mem_cons_self _ _) hc₀
          | cons c' cs' =>
            have hlast' : (c' :: cs').getLast? = some c₀ := by
              rwa [List.getLast?_cons_cons] at hlast
            exact ih (by simp) hlast' (fun hm => hc₀ (List.mem_cons_of_mem _ hm)) h
        · exact Or.inl (by simpa using hac)

theorem mem_of_getLast?_eq {l : List Char} {c : Char} (h : l.getLast? = some c) :
    c ∈ l := by
  induction l with
  | nil => cases h
  | cons a t ih =>
    cases t with
    | nil =>
      simp only [List.getLast?_singleton, Option.some.injEq] at h
      simp [h]
    | cons b t' =>
      rw [List.getLast?_cons_cons] at h
      exact List.mem_cons_of_mem _ (ih h)

theorem dropWhile_ne_nil_of_getLast {p : Char → Bool} {l : List Char} {c₀ : Char}
    (hlast : l.getLast? = some c₀) (hc₀ : p c₀ = false) : l.dropWhile p ≠ [] := by
  intro hdrop
  have hall : ∀ a ∈ l, p a = true := List.dropWhile_eq_nil_iff.mp hdrop
  rw [hall c₀ (mem_of_getLast?_eq hlast)] at hc₀
  cases hc₀

theorem getLast?_dropWhile {p : Char → Bool} {l : List Char}
    (h : l.dropWhile p ≠ []) : (l.dropWhile p).getLast? = l.getLast? := by
  conv_rhs => rw [← List.takeWhile_append_dropWhile (p := p) (l := l)]
  rw [List.getLast?_append_of_ne_nil _ h]

theorem matchArticleHeader_append_none {s : List Char} (rest : List Char)
    (hlast : s.getLast? = some '\n')
    (hnone : matchArticleHeader s = none)
    (hd : ∀ c, rest.head? = some c →
      isPySpace c = false ∧ isDigitChar c = false) :
    matchArticleHeader (s ++ rest) = none := by
  have hr1ne : s.dropWhile (· == ' ') ≠ [] :=
    dropWhile_ne_nil_of_getLast hlast (by decide)
  have hsplit := takeWhile_dropWhile_app_inner (· == ' ') s rest hr1ne
  have hr1last : (s.dropWhile (· == ' ')).getLast? = some '\n' := by
    rw [getLast?_dropWhile hr1ne]; exact hlast
  by_cases hstart : startsWithLit litArticle (s.dropWhile (· == ' ')) = true
  · -- `s` already reaches `Article`; the failure is at the `\s+` or `\d+` stage.
    obtain ⟨t, ht⟩ := (startsWithLit_iff _ _).mp hstart
    have htne : t ≠ [] := by
      rintro rfl
      rw [ht] at hr1last
      simp only [List.append_nil] at hr1last
      exact absurd hr1last (by decide)
    have htlast : t.getLast? = some '\n' := by
      rw [ht, List.getLast?_append_of_ne_nil _ htne] at hr1last
      exact hr1last
    have hdrop7 : ∀ (x : List Char), (litArticle ++ x).drop 7 = x := by
      intro x
      have h7 : (7 : Nat) = litArticle.length := rfl
      rw [h7, List.drop_left]
    rw [matchArticleHeader.eq_def] at hnone
    simp only [ht, startsWithLit_append, if_true, hdrop7] at hnone
    rw [matchArticleHeader.eq_def]
    simp only [hsplit.1, hsplit.2, ht, List.append_assoc, startsWithLit_append,
      if_true, hdrop7]
    by_cases hws : (t.takeWhile isPySpace).isEmpty = true
    · -- no whitespace right after `Article`: the same head of `t` blocks both
      have htw : t.takeWhile isPySpace = [] := by
        cases hq : t.takeWhile isPySpace with
        | nil => rfl
        | cons x y => rw [hq] at hws; cases hws
      have happtw : (t ++ rest).takeWhile isPySpace = [] := by
        apply takeWhile_eq_nil_of_head
        intro c hc
        cases t with
        | nil => exact absurd rfl htne
        | cons a b =>
          simp only [List.cons_append, List.head?_cons, Option.some.injEq] at hc
          subst hc
          by_cases hpa : isPySpace a = true
          · rw [List.takeWhile_cons, if_pos hpa] at htw; cases htw
          · simpa using hpa
      rw [happtw]
      rfl
    · rw [if_neg hws] at hnone
      by_cases hde : t.dropWhile isPySpace = []
      · -- `t` is pure whitespace; the digits would have to come from `rest`
        have hall : ∀ a ∈ t, isPySpace a = true := List.dropWhile_eq_nil_iff.mp hde
        have happ := takeWhile_dropWhile_app isPySpace t rest hall
          (fun c hc => (hd c hc).1)
        have hti : ¬ t.isEmpty = true := by
          cases t with
          | nil => exact absurd rfl htne
          | cons x y => simp
        rw [happ.1, happ.2, if_neg hti]
        rw [takeWhile_eq_nil_of_head (fun c hc => (hd c hc).2)]
        rfl
      · -- the failure on `s` was at the digit stage, inside `t`
        have happ := takeWhile_dropWhile_app_inner isPySpace t rest hde
        rw [happ.1, happ.2, if_neg hws]
        by_cases hds : ((t.dropWhile isPySpace).takeWhile isDigitChar).isEmpty = true
        · have hdsnil : (t.dropWhile isPySpace).takeWhile isDigitChar = [] := by
            cases hq : (t.dropWhile isPySpace).takeWhile isDigitChar with
            | nil => rfl
            | cons x y => rw [hq] at hds; cases hds
          have happds : ((t.dropWhile isPySpace) ++ rest).takeWhile isDigitChar = [] := by
            apply takeWhile_eq_nil_of_head
            intro c hc
            cases hq : t.dropWhile isPySpace with
            | nil => exact absurd hq hde
            | cons a b =>
              rw [hq] at hc
              simp only [List.cons_append, List.head?_cons, Option.some.injEq] at hc
              subst hc
              by_cases hda : isDigitChar a = true
              · rw [hq, List.takeWhile_cons, if_pos hda] at hdsnil; cases hdsnil
              · simpa using hda
          rw [happds]
          rfl
        · rw [if_neg hds] at hnone
          split at hnone <;> cases hnone
  · -- `Article` is not reached inside `s`, and `s` ends with a newline, which
    -- cannot occur inside the literal, so appending cannot repair the mismatch
    have hfalse : startsWithLit litArticle (s.dropWhile (· == ' ')) = false := by
      simpa using hstart
    have hstill := startsWithLit_append_false rest hr1ne hr1last (by decide) hfalse
    rw [matchArticleHeader.eq_def]
    simp only [hsplit.1, hsplit.2, hstill, Bool.false_eq_true, if_false]

theorem splitArticlesGo_skip (u t acc : List Char) (b : Bool) :
    splitArticlesGo u.length (u ++ t) acc b =
      splitArticlesGo 0 t acc
        (match u.getLast? with | some c => c == '\n' | none => b) := by
  induction u generalizing b with
  | nil => rfl
  | cons c cs ih =>
    have hstep : splitArticlesGo (c :: cs).length ((c :: cs) ++ t) acc b =
        splitArticlesGo cs.length (cs ++ t) acc (c == '\n') := rfl
    rw [hstep, ih]
    cases cs with
    | nil => rfl
    | cons c' cs' =>
      rw [List.getLast?_cons_cons]
      cases hq : (c' :: cs').getLast? with
      | none => simp at hq
      | some z => rfl

theorem splitArticlesGo_noBoundary (s acc : List Char) (b : Bool)
    (hB : hasBoundary b s = false) :
    splitArticlesGo 0 s acc b = [acc.reverse ++ s] := by
  induction s generalizing acc b with
  | nil => simp [splitArticlesGo]
  | cons c cs ih =>
    rw [hasBoundary] at hB
    simp only [Bool.or_eq_false_iff, Bool.and_eq_false_iff] at hB
    obtain ⟨h1, h2⟩ := hB
    cases b with
    | false =>
      rw [splitArticlesGo]
      simp only [Bool.false_eq_true, if_false]
      rw [ih _ _ h2]
      simp
    | true =>
      have hm : matchArticleHeader (c :: cs) = none := by
        rcases h1 with h1 | h1
        · cases h1
        · exact Option.not_isSome_iff_eq_none.mp (by simp [h1])
      rw [splitArticlesGo]
      simp only [if_true, hm]
      rw [ih _ _ h2]
      simp

theorem mkBoundary_head (k : Nat) :
    mkBoundary k = 'A' :: (['r', 't', 'i', 'c', 'l', 'e'] ++
      (' ' :: (natRepr k ++ [':']))) := by
  simp [mkBoundary, litArticle]

theorem mkBoundary_drop1_getLast (k : Nat) :
    (['r', 't', 'i', 'c', 'l', 'e'] ++ (' ' :: (natRepr k ++ [':']))).getLast? =
      some ':' := by
  rw [List.getLast?_append_of_ne_nil _ (by simp)]
  rw [show (' ' :: (natRepr k ++ [':'])) = (' ' :: natRepr k) ++ [':' ] by simp]
  rw [List.getLast?_append_of_ne_nil _ (by simp)]
  rfl

theorem splitArticlesGo_seg (k : Nat) (s rest acc : List Char) (b : Bool)
    (hB : hasBoundary b s = false)
    (hflag : if s.isEmpty then b = true else s.getLast? = some '\n') :
    splitArticlesGo 0 (s ++ (mkBoundary k ++ rest)) acc b =
      (acc.reverse ++ s) :: mkBoundary k :: splitArticlesGo 0 rest [] false := by
  induction s generalizing acc b with
  | nil =>
    have hb : b = true := by simpa using hflag
    subst hb
    have hcons : mkBoundary k ++ rest =
        'A' :: ((['r', 't', 'i', 'c', 'l', 'e'] ++ (' ' :: (natRepr k ++ [':']))) ++ rest) := by
      rw [mkBoundary_head, List.cons_append]
    rw [List.nil_append, hcons, splitArticlesGo, ← hcons]
    have hlen : (mkBoundary k).length - 1 =
        (['r', 't', 'i', 'c', 'l', 'e'] ++ (' ' :: (natRepr k ++ [':']))).length := by
      rw [mkBoundary_head]; simp
    simp only [if_true, matchArticleHeader_mkBoundary, hlen, splitArticlesGo_skip,
      mkBoundary_drop1_getLast]
    simp

  | cons c cs ih =>
    rw [hasBoundary] at hB
    simp only [Bool.or_eq_false_iff, Bool.and_eq_false_iff] at hB
    obtain ⟨h1, h2⟩ := hB
    have hlastc : (c :: cs).getLast? = some '\n' := by simpa using hflag
    have hflag' : if cs.isEmpty then (c == '\n') = true else cs.getLast? = some '\n' := by
      cases cs with
      | nil =>
        simp only [List.isEmpty_nil, if_true]
        simp only [List.getLast?_singleton, Option.some.injEq] at hlastc
        simp [hlastc]
      | cons c' cs' =>
        simp only [List.isEmpty_cons, Bool.false_eq_true, if_false]
        rwa [List.getLast?_cons_cons] at hlastc
    cases b with
    | false =>
      rw [List.cons_append, splitArticlesGo]
      simp only [Bool.false_eq_true, if_false]
      rw [ih _ _ h2 hflag']
      simp
    | true =>
      have hm : matchArticleHeader (c :: cs) = none := by
        rcases h1 with h1 | h1
        · cases h1
        · exact Option.not_isSome_iff_eq_none.mp (by simp [h1])
      have hmm : matchArticleHeader ((c :: cs) ++ (mkBoundary k ++ rest)) = none := by
        apply matchArticleHeader_append_none _ hlastc hm
        intro x hx
        rw [mkBoundary_head] at hx
        simp only [List.cons_append, List.head?_cons, Option.some.injEq] at hx
        subst hx
        exact ⟨rfl, rfl⟩
      rw [List.cons_append, splitArticlesGo]
      simp only [if_true]
      rw [show c :: (cs ++ (mkBoundary k ++ rest)) = (c :: cs) ++ (mkBoundary k ++ rest) by simp,
        hmm]
      rw [ih _ _ h2 hflag']
      simp

theorem splitArticlesGo_structured (mid : List (Nat × List Char)) (kL : Nat)
    (bL pre acc : List Char) (b : Bool)
    (hpre : if pre.isEmpty then b = true else pre.getLast? = some '\n')
    (hpreB : hasBoundary b pre = false)
    (hmid : ∀ p ∈ mid, hasBoundary false p.2 = false ∧ p.2.getLast? = some '\n')
    (hbL : hasBoundary false bL = false) :
    splitArticlesGo 0
        (pre ++ ((mid.map fun p => mkBoundary p.1 ++ p.2).flatten ++ (mkBoundary kL ++ bL)))
        acc b =
      (acc.reverse ++ pre) ::
        ((mid.map fun p => [mkBoundary p.1, p.2]).flatten ++ [mkBoundary kL, bL]) := by
  induction mid generalizing pre acc b with
  | nil =>
    simp only [List.map_nil, List.flatten_nil, List.nil_append]
    rw [splitArticlesGo_seg kL pre bL acc b hpreB hpre]
    rw [splitArticlesGo_noBoundary bL [] false hbL]
    simp
  | cons p mid' ih =>
    obtain ⟨k₁, b₁⟩ := p
    have hb₁ := hmid (k₁, b₁) (by simp)
    have harr : pre ++ (((((k₁, b₁) :: mid').map fun p => mkBoundary p.1 ++ p.2).flatten) ++
        (mkBoundary kL ++ bL)) =
        pre ++ (mkBoundary k₁ ++
          (b₁ ++ ((mid'.map fun p => mkBoundary p.1 ++ p.2).flatten ++ (mkBoundary kL ++ bL)))) := by
      simp [List.append_assoc]
    rw [harr, splitArticlesGo_seg k₁ pre _ acc b hpreB hpre]
    have hne₁ : b₁ ≠ [] := by
      intro hnil
      rw [hnil] at hb₁
      cases hb₁.2
    have hflag₁ : if b₁.isEmpty then False = true else b₁.getLast? = some '\n' := by
      cases b₁ with
      | nil => exact absurd rfl hne₁
      | cons x y =>
        simp only [List.isEmpty_cons, Bool.false_eq_true, if_false]
        exact hb₁.2
    have := ih b₁ [] false (by
        cases b₁ with
        | nil => exact absurd rfl hne₁
        | cons x y =>
          simp only [List.isEmpty_cons, Bool.false_eq_true, if_false]
          exact hb₁.2)
      hb₁.1 (fun q hq => hmid q (by simp [hq]))
    rw [this]
    simp

theorem mkBoundary_getLast (k : Nat) : (mkBoundary k).getLast? = some ':' := by
  rw [show mkBoundary k = (litArticle ++ (' ' :: natRepr k)) ++ [':'] by simp [mkBoundary]]
  rw [List.getLast?_append_of_ne_nil _ (by simp)]
  rfl

theorem pyStrip_mkBoundary (k : Nat) : pyStrip (mkBoundary k) = mkBoundary k := by
  apply pyStrip_eq_self
  · intro c hc
    rw [mkBoundary_head] at hc
    simp only [List.head?_cons, Option.some.injEq] at hc
    subst hc; rfl
  · intro c hc
    rw [mkBoundary_getLast] at hc
    simp only [Option.some.injEq] at hc
    subst hc; rfl

theorem startsWithLit_pyStrip_mkBoundary (k : Nat) :
    startsWithLit litArticle (pyStrip (mkBoundary k)) = true := by
  rw [pyStrip_mkBoundary]
  rw [show mkBoundary k = litArticle ++ (' ' :: (natRepr k ++ [':'])) by
    simp [mkBoundary]]
  exact startsWithLit_append _ _

theorem matchArticleNum_mkBoundary (k : Nat) :
    matchArticleNum (mkBoundary k) = some (natRepr k) := by
  have hrepr := natRepr_spec k
  have harr : mkBoundary k = litArticle ++ (' ' :: (natRepr k ++ [':'])) := by
    simp [mkBoundary]
  have hdrop7 : ∀ (x : List Char), (litArticle ++ x).drop 7 = x := by
    intro x
    have h7 : (7 : Nat) = litArticle.length := rfl
    rw [h7, List.drop_left]
  have hws := takeWhile_dropWhile_app isPySpace [' '] (natRepr k ++ [':'])
    (by intro a ha; simp at ha; subst ha; rfl)
    (by
      intro c hc
      cases hn : natRepr k with
      | nil => exact absurd hn hrepr.1
      | cons d ds =>
        rw [hn] at hc
        simp only [List.cons_append, List.head?_cons, Option.some.injEq] at hc
        subst hc
        exact not_pySpace_of_digit (hrepr.2.1 d (by rw [hn]; simp)))
  have hws1 : (' ' :: (natRepr k ++ [':'])).takeWhile isPySpace = [' '] := by
    simpa using hws.1
  have hws2 : (' ' :: (natRepr k ++ [':'])).dropWhile isPySpace = natRepr k ++ [':'] := by
    simpa using hws.2
  have hds := takeWhile_dropWhile_app isDigitChar (natRepr k) [':']
    (fun a ha => hrepr.2.1 a ha)
    (by intro c hc; simp only [List.head?_cons, Option.some.injEq] at hc; subst hc; decide)
  rw [matchArticleNum.eq_def, harr]
  simp only [startsWithLit_append, if_true, hdrop7, hws1, hws2, hds.1,
    List.isEmpty_cons, Bool.false_eq_true, if_false]
  have hne : (natRepr k).isEmpty = false := by
    cases hn : natRepr k with
    | nil => exact absurd hn hrepr.1
    | cons d ds => rfl
  rw [hne]
  rfl

theorem toArticleNumber_natRepr (k : Nat) :
    toArticleNumber (natRepr k) = ArticleNumber.int k := by
  have hrepr := natRepr_spec k
  have hdig : pyIsDigit (natRepr k) = true := by
    unfold pyIsDigit
    have hne : (natRepr k).isEmpty = false := by
      cases hn : natRepr k with
      | nil => exact absurd hn hrepr.1
      | cons d ds => rfl
    rw [hne]
    simp only [Bool.not_false, Bool.true_and]
    rw [List.all_eq_true]
    exact fun c hc => hrepr.2.1 c hc
  unfold toArticleNumber
  rw [hdig, if_pos rfl, hrepr.2.2]

theorem processPair_mkBoundary (inc : Bool) (ctx : DocumentContext) (k : Nat)
    (b : List Char) :
    processPair inc ctx (mkBoundary k) b =
      (if 50 < (pyStrip (clean_text (composeContent inc (updateContext ctx b)
          (mkBoundary k) b))).length then
        some { page_content :=
                 clean_text (composeContent inc (updateContext ctx b) (mkBoundary k) b)
               article_number := ArticleNumber.int k
               section_number := (updateContext ctx b).current_section_num
               section_title := (updateContext ctx b).current_section
               subsection_number := (updateContext ctx b).current_subsection_num
               subsection_title := (updateContext ctx b).current_subsection }
      else none, updateContext ctx b) := by
  rw [processPair.eq_def]
  simp only [startsWithLit_pyStrip_mkBoundary, if_true, matchArticleNum_mkBoundary,
    toArticleNumber_natRepr]
  split <;> rfl

theorem processPairs_mkBoundary (items : List (Nat × List Char)) (ctx : DocumentContext)
    (hbig : ∀ p ∈ items,
      50 < (pyStrip (clean_text (pyStrip (mkBoundary p.1) ++ pyStrip p.2))).length) :
    (processPairs false ctx (items.map fun p => (mkBoundary p.1, p.2))).map
        ArticleChunk.article_number =
      items.map (fun p => ArticleNumber.int p.1) := by
  induction items generalizing ctx with
  | nil => rfl
  | cons p rest ih =>
    obtain ⟨k, b⟩ := p
    have hcomp : composeContent false (updateContext ctx b) (mkBoundary k) b =
        pyStrip (mkBoundary k) ++ pyStrip b := rfl
    rw [List.map_cons, processPairs, processPair_mkBoundary]
    rw [if_pos (by rw [hcomp]; exact hbig (k, b) (by simp))]
    simp only [List.map_cons]
    exact congrArg₂ List.cons rfl (ih _ (fun q hq => hbig q (by simp [hq])))

theorem pairUp_flatten (items : List (Nat × List Char)) :
    pairUp ((items.map fun p => [mkBoundary p.1, p.2]).flatten) =
      items.map fun p => (mkBoundary p.1, p.2) := by
  induction items with
  | nil => rfl
  | cons p rest ih =>
    obtain ⟨k, b⟩ := p
    simp only [List.map_cons, List.flatten_cons, List.cons_append, List.nil_append]
    rw [pairUp, ih]

/-- C1: an input made of a boundary-free preamble (empty or newline-terminated)
followed by N line-anchored `Article k:` boundaries, each boundary followed by
a boundary-free body whose cleaned chunk content exceeds 50 characters, is
chunked by `_parse_document_structure` into exactly N chunks, in document
order, whose `article_number` metadata is exactly the boundary's number `k`;
repeated numbers in the input are all emitted, without deduplication. -/
theorem claim_C1 (pre bL : List Char) (mid : List (Nat × List Char)) (kL : Nat)
    (hpre : pre = [] ∨ pre.getLast? = some '\n')
    (hpreB : hasBoundary true pre = false)
    (hmid : ∀ p ∈ mid, hasBoundary false p.2 = false ∧ p.2.getLast? = some '\n')
    (hbL : hasBoundary false bL = false)
    (hbig : ∀ p ∈ mid ++ [(kL, bL)],
      50 < (pyStrip (clean_text (pyStrip (mkBoundary p.1) ++ pyStrip p.2))).length) :
    (parse_document_structure
        (pre ++ ((mid.map fun p => mkBoundary p.1 ++ p.2).flatten ++ (mkBoundary kL ++ bL)))
        false).map ArticleChunk.article_number =
      (mid ++ [(kL, bL)]).map (fun p => ArticleNumber.int p.1) := by
  have hflag : if pre.isEmpty then (true : Bool) = true else pre.getLast? = some '\n' := by
    cases pre with
    | nil => simp
    | cons c cs =>
      simp only [List.isEmpty_cons, Bool.false_eq_true, if_false]
      rcases hpre with hpre | hpre
      · cases hpre
      · exact hpre
  have hred : parse_document_structure
      (pre ++ ((mid.map fun p => mkBoundary p.1 ++ p.2).flatten ++ (mkBoundary kL ++ bL)))
      false =
      processPairs false (updateContext emptyContext pre)
        (pairUp ((mid.map fun p => [mkBoundary p.1, p.2]).flatten ++ [mkBoundary kL, bL])) := by
    unfold parse_document_structure articleSplit
    rw [splitArticlesGo_structured mid kL bL pre [] true hflag hpreB hmid hbL]
    rfl
  rw [hred]
  have hpieces : (mid.map fun p => [mkBoundary p.1, p.2]).flatten ++ [mkBoundary kL, bL] =
      ((mid ++ [(kL, bL)]).map fun p => [mkBoundary p.1, p.2]).flatten := by
    simp
  rw [hpieces, pairUp_flatten]
  exact processPairs_mkBoundary (mid ++ [(kL, bL)]) _ hbig

/-- Witness for C1 at a concrete two-article input, with a duplicated article
number 3 that is emitted twice. -/
theorem claim_C1_witness :
    (parse_document_structure
        ("PREAMBULE\n".toList ++
          (([(3, " premier corps assez long pour depasser le seuil de cinquante caracteres\n".toList)].map
              fun p => mkBoundary p.1 ++ p.2).flatten ++
            (mkBoundary 3 ++ " second corps assez long pour depasser le seuil de cinquante caracteres.".toList)))
        false).map ArticleChunk.article_number =
      [ArticleNumber.int 3, ArticleNumber.int 3] :=
  claim_C1 "PREAMBULE\n".toList
    " second corps assez long pour depasser le seuil de cinquante caracteres.".toList
    [(3, " premier corps assez long pour depasser le seuil de cinquante caracteres\n".toList)] 3
    (Or.inr (by decide)) (by decide) (by decide) (by decide) (by decide)

theorem matchArticleHeader_only_capital (l h r : List Char)
    (hm : matchArticleHeader l = some (h, r)) :
    (l.dropWhile (· == ' ')).take 7 = litArticle ∧
      ∃ ws ds t, ws ≠ [] ∧ (∀ c ∈ ws, isPySpace c = true) ∧ ds ≠ [] ∧
        (∀ c ∈ ds, isDigitChar c = true) ∧
        (l.dropWhile (· == ' ')).drop 7 = ws ++ ds ++ t := by
  rw [matchArticleHeader.eq_def] at hm
  by_cases h1 : startsWithLit litArticle (l.dropWhile (· == ' ')) = true
  · obtain ⟨t0, ht0⟩ := (startsWithLit_iff _ _).mp h1
    have h7 : (7 : Nat) = litArticle.length := rfl
    have hdrop7 : (litArticle ++ t0).drop 7 = t0 := by rw [h7, List.drop_left]
    have htake7 : (litArticle ++ t0).take 7 = litArticle := by rw [h7, List.take_left]
    simp only [ht0, startsWithLit_append, if_true, hdrop7] at hm
    refine ⟨by rw [ht0, htake7], t0.takeWhile isPySpace,
      (t0.dropWhile isPySpace).takeWhile isDigitChar,
      (t0.dropWhile isPySpace).dropWhile isDigitChar, ?_, ?_, ?_, ?_, ?_⟩
    · intro hws
      rw [hws] at hm
      simp at hm
    · exact fun c hc => List.mem_takeWhile_imp hc
    · intro hds
      rw [hds] at hm
      by_cases hws : (t0.takeWhile isPySpace).isEmpty = true
      · rw [if_pos hws] at hm; cases hm
      · rw [if_neg hws] at hm
        simp at hm
    · exact fun c hc => List.mem_takeWhile_imp hc
    · rw [ht0, hdrop7, List.append_assoc, List.takeWhile_append_dropWhile,
        List.takeWhile_append_dropWhile]
  · rw [if_neg h1] at hm
    cases hm

/-- C2: lowercase `article` never opens a boundary: a match attempt at a
position whose text starts with a lowercase `a` always fails; every position
where the split pattern does match reads — after optional leading spaces — the
capital-A literal `Article`, then whitespace, then digits; and on the
regression text, removing the mid-body `voir l'article 5 ci-dessus` line
leaves the boundary pieces of the split unchanged. -/
theorem claim_C2 :
    (∀ t : List Char, matchArticleHeader ('a' :: t) = none) ∧
    (∀ l h r, matchArticleHeader l = some (h, r) →
      (l.dropWhile (· == ' ')).take 7 = litArticle ∧
        ∃ ws ds t, ws ≠ [] ∧ (∀ c ∈ ws, isPySpace c = true) ∧ ds ≠ [] ∧
          (∀ c ∈ ds, isDigitChar c = true) ∧
          (l.dropWhile (· == ' ')).drop 7 = ws ++ ds ++ t) ∧
    (oddIdx (articleSplit
        "Article 1: Le reglement interieur.\nvoir l\x27article 5 ci-dessus\nArticle 2: La suite du texte.".toList) =
      oddIdx (articleSplit
        "Article 1: Le reglement interieur.\nArticle 2: La suite du texte.".toList)) := by
  refine ⟨?_, matchArticleHeader_only_capital, by decide⟩
  intro t
  rw [matchArticleHeader.eq_def]
  have htw : ('a' :: t).takeWhile (· == ' ') = [] := by
    rw [List.takeWhile_cons]
    simp
  have hdw : ('a' :: t).dropWhile (· == ' ') = 'a' :: t := by
    rw [List.dropWhile_cons]
    simp
  have hsw : startsWithLit litArticle ('a' :: t) = false := by
    simp [litArticle, startsWithLit]
  simp only [hdw, hsw, Bool.false_eq_true, if_false]

/-- Witness for C2's universally quantified parts at the concrete header
`Article 5: x`. -/
theorem claim_C2_witness :
    matchArticleHeader ('a' :: " voir larticle".toList) = none ∧
      (("Article 5: x".toList.dropWhile (· == ' ')).take 7 = litArticle ∧
        ∃ ws ds t, ws ≠ [] ∧ (∀ c ∈ ws, isPySpace c = true) ∧ ds ≠ [] ∧
          (∀ c ∈ ds, isDigitChar c = true) ∧
          ("Article 5: x".toList.dropWhile (· == ' ')).drop 7 = ws ++ ds ++ t) :=
  ⟨claim_C2.1 " voir larticle".toList,
   claim_C2.2.1 "Article 5: x".toList "Article 5:".toList " x".toList (by decide)⟩

theorem processPair_fst_cases (inc : Bool) (ctx : DocumentContext) (h b : List Char) :
    (processPair inc ctx h b).1 = none ∨
      ((processPair inc ctx h b).1 =
        some { page_content := clean_text (composeContent inc (updateContext ctx b) h b)
               article_number := toArticleNumber (match matchArticleNum h with
                 | some ds => ds
                 | none => ['?'])
               section_number := (updateContext ctx b).current_section_num
               section_title := (updateContext ctx b).current_section
               subsection_number := (updateContext ctx b).current_subsection_num
               subsection_title := (updateContext ctx b).current_subsection } ∧
        50 < (pyStrip (clean_text (composeContent inc (updateContext ctx b) h b))).length) := by
  rw [processPair.eq_def]
  by_cases hs : startsWithLit litArticle (pyStrip h) = true
  · rw [if_pos hs]
    by_cases hlen : 50 < (pyStrip (clean_text
        (composeContent inc (updateContext ctx b) h b))).length
    · right
      rw [if_pos hlen]
      exact ⟨rfl, hlen⟩
    · left
      rw [if_neg hlen]
  · rw [if_neg hs]
    exact Or.inl rfl

theorem processPair_some_spec (inc : Bool) (ctx : DocumentContext) (h b : List Char)
    (chunk : ArticleChunk) (hp : (processPair inc ctx h b).1 = some chunk) :
    chunk.page_content = clean_text (composeContent inc (updateContext ctx b) h b) ∧
      50 < (pyStrip chunk.page_content).length ∧
      chunk.section_number = (updateContext ctx b).current_section_num ∧
      chunk.section_title = (updateContext ctx b).current_section ∧
      chunk.subsection_number = (updateContext ctx b).current_subsection_num ∧
      chunk.subsection_title = (updateContext ctx b).current_subsection := by
  rcases processPair_fst_cases inc ctx h b with hnone | ⟨hsome, hlen⟩
  · rw [hp] at hnone; cases hnone
  · rw [hp] at hsome
    have hchunk := Option.some.inj hsome
    subst hchunk
    exact ⟨rfl, hlen, rfl, rfl, rfl, rfl⟩

theorem processPair_snd (inc : Bool) (ctx : DocumentContext) (h b : List Char) :
    (processPair inc ctx h b).2 = stepPairContext ctx (h, b) := by
  rw [processPair.eq_def, stepPairContext]
  by_cases hs : startsWithLit litArticle (pyStrip h) = true
  · rw [if_pos hs, if_pos hs]
    by_cases hlen : 50 < (pyStrip (clean_text
        (composeContent inc (updateContext ctx b) h b))).length
    · rw [if_pos hlen]
    · rw [if_neg hlen]
  · rw [if_neg hs, if_neg hs]

theorem processPairs_content_length (inc : Bool) :
    ∀ (ps : List (List Char × List Char)) (ctx : DocumentContext)
      (c : ArticleChunk), c ∈ processPairs inc ctx ps →
      50 < (pyStrip c.page_content).length := by
  intro ps
  induction ps with
  | nil => intro ctx c hc; cases hc
  | cons p rest ih =>
    intro ctx c hc
    obtain ⟨h, b⟩ := p
    rw [processPairs] at hc
    rcases hp : processPair inc ctx h b with ⟨copt, ctx2⟩
    rw [hp] at hc
    cases copt with
    | none => exact ih _ c hc
    | some chunk =>
      replace hc : c ∈ chunk :: processPairs inc ctx2 rest := hc
      have hp1 : (processPair inc ctx h b).1 = some chunk := by rw [hp]
      simp only [List.mem_cons] at hc
      rcases hc with rfl | hc
      · exact (processPair_some_spec inc ctx h b c hp1).2.1
      · exact ih _ c hc

/-- C3: every chunk `_parse_document_structure` emits has cleaned content of
length strictly greater than 50 after stripping, and a (header, body) pair
whose cleaned composed content is not longer than 50 characters is silently
discarded: its loop iteration produces no chunk (and no error — `processPair`
is total). -/
theorem claim_C3 :
    (∀ (text : List Char) (inc : Bool) (c : ArticleChunk),
        c ∈ parse_document_structure text inc → 50 < (pyStrip c.page_content).length) ∧
    (∀ (inc : Bool) (ctx : DocumentContext) (h b : List Char),
        (pyStrip (clean_text (composeContent inc (updateContext ctx b) h b))).length ≤ 50 →
        (processPair inc ctx h b).1 = none) := by
  constructor
  · intro text inc c hc
    rw [parse_document_structure.eq_def] at hc
    rcases hsplit : articleSplit text with _ | ⟨intro_seg, rest⟩
    · rw [hsplit] at hc; cases hc
    · rw [hsplit] at hc
      exact processPairs_content_length inc _ _ c hc
  · intro inc ctx h b hlen
    rcases processPair_fst_cases inc ctx h b with hnone | ⟨_, hbig⟩
    · exact hnone
    · omega

/-- Witness for C3: the single-article text emits one 82-character chunk, and
a bare short article pair yields no chunk. -/
theorem claim_C3_witness :
    (50 < (pyStrip
        ({ page_content :=
             "Article 9:Ce corps de texte est suffisamment long pour creer un chunk valide ici.".toList
           article_number := ArticleNumber.int 9
           section_number := []
           section_title := []
           subsection_number := []
           subsection_title := [] : ArticleChunk}).page_content).length) ∧
    (processPair false emptyContext "Article 1:".toList " court".toList).1 = none :=
  ⟨claim_C3.1
      "Article 9: Ce corps de texte est suffisamment long pour creer un chunk valide ici.".toList
      false _ (by decide),
   claim_C3.2 false emptyContext "Article 1:".toList " court".toList (by decide)⟩

theorem processPairs_append (inc : Bool) :
    ∀ (l₁ l₂ : List (List Char × List Char)) (ctx : DocumentContext),
      processPairs inc ctx (l₁ ++ l₂) =
        processPairs inc ctx l₁ ++ processPairs inc (l₁.foldl stepPairContext ctx) l₂ := by
  intro l₁
  induction l₁ with
  | nil => intro l₂ ctx; rfl
  | cons p rest ih =>
    intro l₂ ctx
    obtain ⟨h, b⟩ := p
    rw [List.cons_append, processPairs, processPairs]
    rcases hp : processPair inc ctx h b with ⟨copt, ctx2⟩
    have hsnd : ctx2 = stepPairContext ctx (h, b) := by
      have := processPair_snd inc ctx h b
      rw [hp] at this
      exact this
    cases copt with
    | none =>
      show processPairs inc ctx2 (rest ++ l₂) =
        processPairs inc ctx2 rest ++
          processPairs inc (((h, b) :: rest).foldl stepPairContext ctx) l₂
      rw [List.foldl_cons, ← hsnd, ih]
    | some chunk =>
      show chunk :: processPairs inc ctx2 (rest ++ l₂) =
        chunk :: processPairs inc ctx2 rest ++
          processPairs inc (((h, b) :: rest).foldl stepPairContext ctx) l₂
      rw [List.foldl_cons, ← hsnd, ih]
      rfl

theorem updateContext_section (ctx : DocumentContext) (seg : List Char) :
    ((∀ num title, lastSectionMatch seg = some (num, title) →
        (updateContext ctx seg).current_section_num = num ∧
        (updateContext ctx seg).current_section = pyStrip title) ∧
      (lastSectionMatch seg = none →
        (updateContext ctx seg).current_section_num = ctx.current_section_num ∧
        (updateContext ctx seg).current_section = ctx.current_section)) := by
  constructor
  · intro num title hm
    unfold updateContext
    rw [hm]
    rcases lastSubsectionMatch seg with _ | ⟨n2, t2⟩ <;> exact ⟨rfl, rfl⟩
  · intro hm
    unfold updateContext
    rw [hm]
    rcases lastSubsectionMatch seg with _ | ⟨n2, t2⟩ <;> exact ⟨rfl, rfl⟩

/-- C4: (i) processing a list of (header, body) pairs splits at any point:
the chunks of the first part are computed without looking at the later pairs
(headers appearing in later articles never affect an earlier article's
context), and the later pairs start from the context accumulated over the
first part (never rolled back); (ii) an emitted chunk's context metadata is
exactly the context after scanning its own body; (iii) that scan keeps the
groups of the segment's last section-header match (title stripped), and (iv)
leaves the context untouched when the segment has no match. -/
theorem claim_C4 :
    (∀ (inc : Bool) (ctx : DocumentContext) (l₁ l₂ : List (List Char × List Char)),
        processPairs inc ctx (l₁ ++ l₂) =
          processPairs inc ctx l₁ ++ processPairs inc (l₁.foldl stepPairContext ctx) l₂) ∧
    (∀ (inc : Bool) (ctx : DocumentContext) (h b : List Char) (c : ArticleChunk),
        (processPair inc ctx h b).1 = some c →
          c.section_number = (updateContext ctx b).current_section_num ∧
          c.section_title = (updateContext ctx b).current_section ∧
          c.subsection_number = (updateContext ctx b).current_subsection_num ∧
          c.subsection_title = (updateContext ctx b).current_subsection) ∧
    (∀ (ctx : DocumentContext) (seg : List Char) (num title : List Char),
        lastSectionMatch seg = some (num, title) →
          (updateContext ctx seg).current_section_num = num ∧
          (updateContext ctx seg).current_section = pyStrip title) ∧
    (∀ (ctx : DocumentContext) (seg : List Char),
        lastSectionMatch seg = none →
          (updateContext ctx seg).current_section_num = ctx.current_section_num ∧
          (updateContext ctx seg).current_section = ctx.current_section) := by
  refine ⟨fun inc ctx l₁ l₂ => processPairs_append inc l₁ l₂ ctx, ?_, ?_, ?_⟩
  · intro inc ctx h b c hp
    have := processPair_some_spec inc ctx h b c hp
    exact ⟨this.2.2.1, this.2.2.2.1, this.2.2.2.2.1, this.2.2.2.2.2⟩
  · intro ctx seg num title hm
    exact (updateContext_section ctx seg).1 num title hm
  · intro ctx seg hm
    exact (updateContext_section ctx seg).2 hm

/-- Witness for C4 at a concrete pair and segments: a body with no section
header leaves the (empty) context untouched on the emitted chunk, and a
segment carrying `3 HYGIENE ET SECURITE` is kept as the last match. -/
theorem claim_C4_witness :
    (let cW : ArticleChunk :=
       { page_content :=
           "Article 2:corps relativement long pour etre garde par le filtre de longueur minimale.".toList
         article_number := ArticleNumber.int 2
         section_number := []
         section_title := []
         subsection_number := []
         subsection_title := [] }
     let bW :=
       " corps relativement long pour etre garde par le filtre de longueur minimale.".toList
     cW.section_number = (updateContext emptyContext bW).current_section_num ∧
       cW.section_title = (updateContext emptyContext bW).current_section ∧
       cW.subsection_number = (updateContext emptyContext bW).current_subsection_num ∧
       cW.subsection_title = (updateContext emptyContext bW).current_subsection) ∧
    ((updateContext emptyContext "3 HYGIENE ET SECURITE\nreste".toList).current_section_num =
        ['3'] ∧
      (updateContext emptyContext "3 HYGIENE ET SECURITE\nreste".toList).current_section =
        pyStrip "HYGIENE ET SECURITE".toList) ∧
    ((updateContext emptyContext " aucun en-tete ici".toList).current_section_num =
        emptyContext.current_section_num ∧
      (updateContext emptyContext " aucun en-tete ici".toList).current_section =
        emptyContext.current_section) :=
  ⟨claim_C4.2.1 false emptyContext "Article 2:".toList
      " corps relativement long pour etre garde par le filtre de longueur minimale.".toList
      _ (by decide),
   claim_C4.2.2.1 emptyContext "3 HYGIENE ET SECURITE\nreste".toList ['3']
      ("HYGIENE ET SECURITE".toList) (by decide),
   claim_C4.2.2.2 emptyContext " aucun en-tete ici".toList (by decide)⟩

set_option maxRecDepth 16384 in
/-- C5: the round-trip example: chunking the two-line input (a section header
line, then `Article 1:` and its body) with `include_section_context = true`
yields exactly one chunk with `article_number = 1`, `section_number = "5"`,
`section_title = "DISPOSITIONS GENERALES"`, whose content contains both the
(context) section header line and the article body text. -/
theorem claim_C5 :
    parse_document_structure
        "5 DISPOSITIONS GENERALES\n\nArticle 1: Les étudiants doivent respecter le règlement intérieur de l\x27école à tout moment.".toList
        true =
      [{ page_content :=
           "[Section 5: DISPOSITIONS GENERALES]\n\nArticle 1:Les étudiants doivent respecter le règlement intérieur de l\x27école à tout moment.".toList
         article_number := ArticleNumber.int 1
         section_number := ['5']
         section_title := "DISPOSITIONS GENERALES".toList
         subsection_number := []
         subsection_title := [] }] ∧
    sectionLine ['5'] "DISPOSITIONS GENERALES".toList <:+:
      "[Section 5: DISPOSITIONS GENERALES]\n\nArticle 1:Les étudiants doivent respecter le règlement intérieur de l\x27école à tout moment.".toList ∧
    "Les étudiants doivent respecter le règlement intérieur de l\x27école à tout moment.".toList <:+:
      "[Section 5: DISPOSITIONS GENERALES]\n\nArticle 1:Les étudiants doivent respecter le règlement intérieur de l\x27école à tout moment.".toList := by
  refine ⟨by decide, ?_, ?_⟩
  · exact ⟨[], "\n\nArticle 1:Les étudiants doivent respecter le règlement intérieur de l\x27école à tout moment.".toList, by decide⟩
  · exact ⟨"[Section 5: DISPOSITIONS GENERALES]\n\nArticle 1:".toList, [], by decide⟩

theorem splitLines_no_nl {a : List Char} (h : '\n' ∉ a) : splitLines a = [a] := by
  induction a with
  | nil => rfl
  | cons c cs ih =>
    have hc : (c == '\n') = false := by
      simp only [List.mem_cons, not_or] at h
      simpa using fun hq => h.1 (by rw [hq])
    have ih' := ih (by simp only [List.mem_cons, not_or] at h; exact h.2)
    rw [splitLines, if_neg (by simp [hc]), ih']

theorem splitLines_append_nl {a : List Char} (b : List Char) (h : '\n' ∉ a) :
    splitLines (a ++ '\n' :: b) = a :: splitLines b := by
  induction a with
  | nil =>
    rw [List.nil_append, splitLines, if_pos (by decide)]
  | cons c cs ih =>
    have hc : (c == '\n') = false := by
      simp only [List.mem_cons, not_or] at h
      simpa using fun hq => h.1 (by rw [hq])
    have ih' := ih (by simp only [List.mem_cons, not_or] at h; exact h.2)
    rw [List.cons_append, splitLines, if_neg (by simp [hc]), ih']

theorem sectionLine_ne_subsectionLine (sn st un ut : List Char) :
    sectionLine sn st ≠ subsectionLine un ut := by
  intro h
  have e1 : (sectionLine sn st).get? 2 = some 'e' := rfl
  have e2 : (subsectionLine un ut).get? 2 = some 'o' := rfl
  rw [h, e2] at e1
  cases e1

theorem sectionLine_ne_nil (sn st : List Char) : sectionLine sn st ≠ [] := by
  intro h
  cases h

theorem nl_not_mem_sectionLine {sn st : List Char} (h1 : '\n' ∉ sn) (h2 : '\n' ∉ st) :
    '\n' ∉ sectionLine sn st := by
  intro hm
  unfold sectionLine at hm
  rcases List.mem_append.mp hm with hm | hm
  · rcases List.mem_append.mp hm with hm | hm
    · rcases List.mem_append.mp hm with hm | hm
      · rcases List.mem_append.mp hm with hm | hm
        · exact absurd hm (by decide)
        · exact h1 hm
      · exact absurd hm (by decide)
    · exact h2 hm
  · exact absurd hm (by decide)

theorem nl_not_mem_subsectionLine {un ut : List Char} (h1 : '\n' ∉ un) (h2 : '\n' ∉ ut) :
    '\n' ∉ subsectionLine un ut := by
  intro hm
  unfold subsectionLine at hm
  rcases List.mem_append.mp hm with hm | hm
  · rcases List.mem_append.mp hm with hm | hm
    · rcases List.mem_append.mp hm with hm | hm
      · rcases List.mem_append.mp hm with hm | hm
        · exact absurd hm (by decide)
        · exact h1 hm
      · exact absurd hm (by decide)
    · exact h2 hm
  · exact absurd hm (by decide)

theorem build_context_header_cases (sn st un ut : List Char) :
    build_context_header sn st un ut =
      if sn ≠ [] ∧ st ≠ [] then
        (if un ≠ [] ∧ ut ≠ [] then sectionLine sn st ++ '\n' :: subsectionLine un ut
         else sectionLine sn st)
      else (if un ≠ [] ∧ ut ≠ [] then subsectionLine un ut else []) := by
  have hb1 : (!sn.isEmpty && !st.isEmpty) = true ↔ (sn ≠ [] ∧ st ≠ []) := by
    simp [List.isEmpty_iff]
  have hb2 : (!un.isEmpty && !ut.isEmpty) = true ↔ (un ≠ [] ∧ ut ≠ []) := by
    simp [List.isEmpty_iff]
  unfold build_context_header
  by_cases h1 : sn ≠ [] ∧ st ≠ [] <;> by_cases h2 : un ≠ [] ∧ ut ≠ []
  · rw [if_pos (hb1.mpr h1), if_pos (hb2.mpr h2), if_pos h1, if_pos h2]
    simp [List.intersperse]
  · rw [if_pos (hb1.mpr h1), if_neg (by rw [← hb2] at h2; simpa using h2),
      if_pos h1, if_neg h2]
    simp [List.intersperse]
  · rw [if_neg (by rw [← hb1] at h1; simpa using h1), if_pos (hb2.mpr h2),
      if_neg h1, if_pos h2]
    simp [List.intersperse]
  · rw [if_neg (by rw [← hb1] at h1; simpa using h1),
      if_neg (by rw [← hb2] at h2; simpa using h2), if_neg h1, if_neg h2]
    rfl

/-- C6: with `include_section_context = false` the composed chunk content is
exactly the stripped header and body — no context line is added; with the
context on, the `[Section num: title]` line occurs among the context header's
lines exactly when both the number and the title are non-empty (likewise for
`[Sous-section num: title]`); and when neither pair is complete the context
header is omitted entirely (the empty string). -/
theorem claim_C6 :
    (∀ (ctx : DocumentContext) (h b : List Char),
        composeContent false ctx h b = pyStrip h ++ pyStrip b) ∧
    (∀ sn st un ut : List Char, '\n' ∉ sn → '\n' ∉ st → '\n' ∉ un → '\n' ∉ ut →
        ((sectionLine sn st ∈ splitLines (build_context_header sn st un ut)) ↔
          (sn ≠ [] ∧ st ≠ [])) ∧
        ((subsectionLine un ut ∈ splitLines (build_context_header sn st un ut)) ↔
          (un ≠ [] ∧ ut ≠ []))) ∧
    (∀ sn st un ut : List Char, (sn = [] ∨ st = []) → (un = [] ∨ ut = []) →
        build_context_header sn st un ut = []) := by
  refine ⟨fun ctx h b => rfl, ?_, ?_⟩
  · intro sn st un ut hn1 hn2 hn3 hn4
    rw [build_context_header_cases]
    by_cases h1 : sn ≠ [] ∧ st ≠ [] <;> by_cases h2 : un ≠ [] ∧ ut ≠ []
    · rw [if_pos h1, if_pos h2,
        splitLines_append_nl _ (nl_not_mem_sectionLine hn1 hn2),
        splitLines_no_nl (nl_not_mem_subsectionLine hn3 hn4)]
      constructor
      · constructor
        · intro _; exact h1
        · intro _; simp
      · constructor
        · intro _; exact h2
        · intro _; simp
    · rw [if_pos h1, if_neg h2, splitLines_no_nl (nl_not_mem_sectionLine hn1 hn2)]
      constructor
      · constructor
        · intro _; exact h1
        · intro _; simp
      · constructor
        · intro hmem
          simp only [List.mem_singleton] at hmem
          exact absurd hmem.symm (sectionLine_ne_subsectionLine sn st un ut)
        · intro hc; exact absurd hc h2
    · rw [if_neg h1, if_pos h2, splitLines_no_nl (nl_not_mem_subsectionLine hn3 hn4)]
      constructor
      · constructor
        · intro hmem
          simp only [List.mem_singleton] at hmem
          exact absurd hmem (sectionLine_ne_subsectionLine sn st un ut)
        · intro hc; exact absurd hc h1
      · constructor
        · intro _; exact h2
        · intro _; simp
    · rw [if_neg h1, if_neg h2]
      constructor
      · constructor
        · intro hmem
          rw [show splitLines [] = [[]] from rfl] at hmem
          simp only [List.mem_singleton] at hmem
          exact absurd hmem (sectionLine_ne_nil sn st)
        · intro hc; exact absurd hc h1
      · constructor
        · intro hmem
          rw [show splitLines [] = [[]] from rfl] at hmem
          simp only [List.mem_singleton] at hmem
          cases hmem
        · intro hc; exact absurd hc h2
  · intro sn st un ut h1 h2
    rw [build_context_header_cases,
      if_neg (by rcases h1 with h1 | h1 <;> simp [h1]),
      if_neg (by rcases h2 with h2 | h2 <;> simp [h2])]

/-- Witness for C6: a complete section pair makes the line present, an
incomplete one drops it, and a fully empty context omits the header. -/
theorem claim_C6_witness :
    (composeContent false emptyContext "Article 1:".toList " corps".toList =
      pyStrip "Article 1:".toList ++ pyStrip " corps".toList) ∧
    ((sectionLine ['5'] "TITRE".toList ∈
        splitLines (build_context_header ['5'] "TITRE".toList [] [])) ↔
      (['5'] ≠ ([] : List Char) ∧ "TITRE".toList ≠ ([] : List Char))) ∧
    build_context_header [] "TITRE".toList ['1'] [] = [] :=
  ⟨claim_C6.1 emptyContext "Article 1:".toList " corps".toList,
   (claim_C6.2.1 ['5'] "TITRE".toList [] [] (by decide) (by decide) (by decide)
      (by decide)).1,
   claim_C6.2.2 [] "TITRE".toList ['1'] [] (Or.inl rfl) (Or.inr rfl)⟩

theorem specCNL_nil : specCollapseNewlines [] = [] := by
  rw [specCollapseNewlines]

theorem specCNL_cons (c : Char) (cs : List Char) :
    specCollapseNewlines (c :: cs) =
      if c == '\n' then
        (if 3 ≤ (cs.takeWhile (· == '\n')).length + 1 then ['\n', '\n']
         else '\n' :: cs.takeWhile (· == '\n')) ++
          specCollapseNewlines (cs.dropWhile (· == '\n'))
      else c :: specCollapseNewlines cs := by
  rw [specCollapseNewlines]

theorem replicate_nl_split (m : Nat) :
    (List.replicate m '\n').takeWhile (· == '\n') = List.replicate m '\n' ∧
      (List.replicate m '\n').dropWhile (· == '\n') = [] := by
  have hdw : (List.replicate m '\n').dropWhile (· == '\n') = [] :=
    List.dropWhile_eq_nil_iff.mpr
      (fun a ha => by rw [List.eq_of_mem_replicate ha]; rfl)
  refine ⟨?_, hdw⟩
  have happ := List.takeWhile_append_dropWhile (p := (· == '\n'))
    (l := List.replicate m '\n')
  rwa [hdw, List.append_nil] at happ

theorem specCNL_replicate (cnt : Nat) :
    specCollapseNewlines (List.replicate cnt '\n') =
      List.replicate (min cnt 2) '\n' := by
  cases cnt with
  | zero => rw [List.replicate_zero, specCNL_nil]; rfl
  | succ m =>
    rw [List.replicate_succ, specCNL_cons, if_pos (by decide),
      (replicate_nl_split m).1, (replicate_nl_split m).2, specCNL_nil,
      List.append_nil, List.length_replicate]
    by_cases h3 : 3 ≤ m + 1
    · rw [if_pos h3]
      have hmin : min (m + 1) 2 = 2 := by omega
      rw [hmin]
      rfl
    · rw [if_neg h3]
      have hmin : min (m + 1) 2 = m + 1 := by omega
      rw [hmin, List.replicate_succ]

theorem takeWhile_replicate_app (m : Nat) (c : Char) (cs : List Char)
    (hc : (c == '\n') = false) :
    (List.replicate m '\n' ++ c :: cs).takeWhile (· == '\n') = List.replicate m '\n' ∧
      (List.replicate m '\n' ++ c :: cs).dropWhile (· == '\n') = c :: cs :=
  takeWhile_dropWhile_app _ _ _
    (fun a ha => by rw [List.eq_of_mem_replicate ha]; rfl)
    (fun x hx => by
      simp only [List.head?_cons, Option.some.injEq] at hx
      subst hx
      exact hc)

theorem collapseNewlinesGo_spec : ∀ (t : List Char) (cnt : Nat),
    collapseNewlinesGo cnt t = specCollapseNewlines (List.replicate cnt '\n' ++ t) := by
  intro t
  induction t with
  | nil =>
    intro cnt
    rw [List.append_nil, collapseNewlinesGo, specCNL_replicate]
  | cons c cs ih =>
    intro cnt
    rw [collapseNewlinesGo]
    by_cases hc : (c == '\n') = true
    · rw [if_pos hc, ih (cnt + 1)]
      have hceq : c = '\n' := by simpa using hc
      subst hceq
      congr 1
      rw [List.replicate_succ', List.append_assoc]
      rfl
    · rw [if_neg hc]
      have hc' : (c == '\n') = false := by simpa using hc
      have ih0 : collapseNewlinesGo 0 cs = specCollapseNewlines cs := by
        have := ih 0
        rwa [List.replicate_zero, List.nil_append] at this
      rw [ih0]
      cases cnt with
      | zero =>
        rw [List.replicate_zero, List.nil_append, specCNL_cons, if_neg (by simp [hc'])]
        rfl
      | succ m =>
        conv_rhs => rw [List.replicate_succ, List.cons_append, specCNL_cons]
        rw [if_pos (show (('\n' : Char) == '\n') = true from rfl)]
        rw [(takeWhile_replicate_app m c cs hc').1, (takeWhile_replicate_app m c cs hc').2]
        rw [List.length_replicate]
        conv_rhs => rw [specCNL_cons]
        rw [if_neg (show ¬ ((c == '\n') = true) by simp [hc'])]
        by_cases h3 : 3 ≤ m + 1
        · rw [if_pos h3]
          have hmin : min (m + 1) 2 = 2 := by omega
          rw [hmin]
          rfl
        · rw [if_neg h3]
          have hmin : min (m + 1) 2 = m + 1 := by omega
          rw [hmin, List.replicate_succ]

theorem collapseNewlines_spec (t : List Char) :
    collapseNewlines t = specCollapseNewlines t := by
  have := collapseNewlinesGo_spec t 0
  rwa [List.replicate_zero, List.nil_append] at this

theorem specCS_nil : specCollapseSpaces [] = [] := by
  rw [specCollapseSpaces]

theorem specCS_cons (c : Char) (cs : List Char) :
    specCollapseSpaces (c :: cs) =
      if c == ' ' then
        (if 2 ≤ (cs.takeWhile (· == ' ')).length + 1 then [' ']
         else ' ' :: cs.takeWhile (· == ' ')) ++
          specCollapseSpaces (cs.dropWhile (· == ' ')) 
      else c :: specCollapseSpaces cs := by
  rw [specCollapseSpaces]

theorem replicate_sp_split (m : Nat) :
    (List.replicate m ' ').takeWhile (· == ' ') = List.replicate m ' ' ∧
      (List.replicate m ' ').dropWhile (· == ' ') = [] := by
  have hdw : (List.replicate m ' ').dropWhile (· == ' ') = [] :=
    List.dropWhile_eq_nil_iff.mpr
      (fun a ha => by rw [List.eq_of_mem_replicate ha]; rfl)
  refine ⟨?_, hdw⟩
  have happ := List.takeWhile_append_dropWhile (p := (· == ' '))
    (l := List.replicate m ' ')
  rwa [hdw, List.append_nil] at happ

theorem specCS_replicate (cnt : Nat) :
    specCollapseSpaces (List.replicate cnt ' ') = List.replicate (min cnt 1) ' ' := by
  cases cnt with
  | zero => rw [List.replicate_zero, specCS_nil]; rfl
  | succ m =>
    rw [List.replicate_succ, specCS_cons, if_pos (by decide),
      (replicate_sp_split m).1, (replicate_sp_split m).2, specCS_nil,
      List.append_nil, List.length_replicate]
    by_cases h2 : 2 ≤ m + 1
    · rw [if_pos h2]
      have hmin : min (m + 1) 1 = 1 := by omega
      rw [hmin]
      rfl
    · rw [if_neg h2]
      have hm0 : m = 0 := by omega
      subst hm0
      rfl

theorem takeWhile_sp_replicate_app (m : Nat) (c : Char) (cs : List Char)
    (hc : (c == ' ') = false) :
    (List.replicate m ' ' ++ c :: cs).takeWhile (· == ' ') = List.replicate m ' ' ∧
      (List.replicate m ' ' ++ c :: cs).dropWhile (· == ' ') = c :: cs :=
  takeWhile_dropWhile_app _ _ _
    (fun a ha => by rw [List.eq_of_mem_replicate ha]; rfl)
    (fun x hx => by
      simp only [List.head?_cons, Option.some.injEq] at hx
      subst hx
      exact hc)

theorem collapseSpacesGo_spec : ∀ (t : List Char) (cnt : Nat),
    collapseSpacesGo cnt t = specCollapseSpaces (List.replicate cnt ' ' ++ t) := by
  intro t
  induction t with
  | nil =>
    intro cnt
    rw [List.append_nil, collapseSpacesGo, specCS_replicate]
  | cons c cs ih =>
    intro cnt
    rw [collapseSpacesGo]
    by_cases hc : (c == ' ') = true
    · rw [if_pos hc, ih (cnt + 1)]
      have hceq : c = ' ' := by simpa using hc
      subst hceq
      congr 1
      rw [List.replicate_succ', List.append_assoc]
      rfl
    · rw [if_neg hc]
      have hc' : (c == ' ') = false := by simpa using hc
      have ih0 : collapseSpacesGo 0 cs = specCollapseSpaces cs := by
        have := ih 0
        rwa [List.replicate_zero, List.nil_append] at this
      rw [ih0]
      cases cnt with
      | zero =>
        rw [List.replicate_zero, List.nil_append, specCS_cons, if_neg (by simp [hc'])]
        rfl
      | succ m =>
        conv_rhs => rw [List.replicate_succ, List.cons_append, specCS_cons]
        rw [if_pos (show ((' ' : Char) == ' ') = true from rfl)]
        rw [(takeWhile_sp_replicate_app m c cs hc').1,
          (takeWhile_sp_replicate_app m c cs hc').2]
        rw [List.length_replicate]
        conv_rhs => rw [specCS_cons]
        rw [if_neg (show ¬ ((c == ' ') = true) by simp [hc'])]
        by_cases h2 : 2 ≤ m + 1
        · rw [if_pos h2]
          have hmin : min (m + 1) 1 = 1 := by omega
          rw [hmin]
          rfl
        · rw [if_neg h2]
          have hm0 : m = 0 := by omega
          subst hm0
          rfl

theorem collapseSpaces_spec (t : List Char) :
    collapseSpaces t = specCollapseSpaces t := by
  have := collapseSpacesGo_spec t 0
  rwa [List.replicate_zero, List.nil_append] at this

theorem splitLines_ne_nil (t : List Char) : splitLines t ≠ [] := by
  cases t with
  | nil => simp [splitLines]
  | cons c cs =>
    rw [splitLines]
    by_cases hc : (c == '\n') = true
    · rw [if_pos hc]; simp
    · rw [if_neg hc]
      cases splitLines cs <;> simp

theorem joinLines_single (x : List Char) : joinLines [x] = x := by
  simp [joinLines, List.intersperse]

theorem joinLines_cons2 (x y : List Char) (ys : List (List Char)) :
    joinLines (x :: y :: ys) = x ++ '\n' :: joinLines (y :: ys) := by
  simp [joinLines, List.intersperse]

theorem joinLines_prepend (a x : List Char) (M : List (List Char)) :
    joinLines ((a ++ x) :: M) = a ++ joinLines (x :: M) := by
  cases M with
  | nil => rw [joinLines_single, joinLines_single]
  | cons y ys => rw [joinLines_cons2, joinLines_cons2, List.append_assoc]

theorem joinLines_cons_char (c : Char) (x : List Char) (M : List (List Char)) :
    joinLines ((c :: x) :: M) = c :: joinLines (x :: M) := by
  have := joinLines_prepend [c] x M
  simpa using this

theorem joinLines_nil_cons (L : List (List Char)) (hL : L ≠ []) :
    joinLines ([] :: L) = '\n' :: joinLines L := by
  cases L with
  | nil => exact absurd rfl hL
  | cons y ys => rw [joinLines_cons2]; rfl

theorem digitLineF_keep {ln : List Char} {c : Char} (hc : c ∈ ln)
    (hd : isDigitChar c = false) : digitLineF ln = ln := by
  unfold digitLineF
  rw [if_neg]
  intro hcond
  rw [Bool.and_eq_true] at hcond
  have := List.all_eq_true.mp hcond.2 c hc
  rw [hd] at this
  cases this

theorem digitLineF_digits {ds : List Char} (h : ∀ c ∈ ds, isDigitChar c = true) :
    digitLineF ds = [] := by
  unfold digitLineF
  cases ds with
  | nil => rfl
  | cons d ds' =>
    rw [if_pos]
    simp only [List.isEmpty_cons, Bool.not_false, Bool.true_and]
    exact List.all_eq_true.mpr h

theorem nl_not_mem_digits {ds : List Char} (h : ∀ c ∈ ds, isDigitChar c = true) :
    '\n' ∉ ds := by
  intro hm
  have := h '\n' hm
  cases this

theorem splitLines_prepend {a : List Char} (t : List Char) (h : '\n' ∉ a)
    {ln : List Char} {lns : List (List Char)} (hs : splitLines t = ln :: lns) :
    splitLines (a ++ t) = (a ++ ln) :: lns := by
  induction a with
  | nil => simpa using hs
  | cons c cs ih =>
    have hc : (c == '\n') = false := by
      simp only [List.mem_cons, not_or] at h
      simpa using fun hq => h.1 (by rw [hq])
    have ih' := ih (by simp only [List.mem_cons, not_or] at h; exact h.2)
    rw [List.cons_append, splitLines, if_neg (by simp [hc]), ih']
    rfl

theorem keepFirstLine_eq (t ln : List Char) (lns : List (List Char))
    (hs : splitLines t = ln :: lns) :
    keepFirstLine t = joinLines (ln :: lns.map digitLineF) := by
  unfold keepFirstLine
  rw [hs]

theorem removeDigitLinesGo_spec : ∀ (n : Nat) (t : List Char), t.length ≤ n →
    (∀ dsRev, (∀ c ∈ dsRev, isDigitChar c = true) →
      removeDigitLinesGo (some dsRev) t = specRemoveDigitLines (dsRev.reverse ++ t)) ∧
    removeDigitLinesGo none t = keepFirstLine t := by
  intro n
  induction n with
  | zero =>
    intro t ht
    have ht0 : t = [] := List.length_eq_zero.mp (Nat.le_antisymm ht (Nat.zero_le _))
    subst ht0
    constructor
    · intro dsRev hds
      rw [removeDigitLinesGo, List.append_nil]
      unfold specRemoveDigitLines
      rw [splitLines_no_nl (by
        intro hm
        exact nl_not_mem_digits hds (List.mem_reverse.mp hm))]
      rw [List.map_cons, List.map_nil,
        digitLineF_digits (fun c hc => hds c (List.mem_reverse.mp hc)), joinLines_single]
    · rfl
  | succ n ih =>
    intro t ht
    cases t with
    | nil => exact (ih [] (by simp)).imp (fun f ds => f ds) id
    | cons c cs =>
      have hcs : cs.length ≤ n := by simpa using ht
      have ihA := (ih cs hcs).1
      have ihB := (ih cs hcs).2
      obtain ⟨ln, lns, hsplit⟩ : ∃ ln lns, splitLines cs = ln :: lns := by
        cases hq : splitLines cs with
        | nil => exact absurd hq (splitLines_ne_nil cs)
        | cons a b => exact ⟨a, b, rfl⟩
      constructor
      · intro dsRev hds
        have hnlds : '\n' ∉ dsRev.reverse := by
          intro hm
          exact nl_not_mem_digits hds (List.mem_reverse.mp hm)
        rw [removeDigitLinesGo]
        by_cases hc : (c == '\n') = true
        · rw [if_pos hc, ihA [] (by intro x hx; cases hx)]
          have hceq : c = '\n' := by simpa using hc
          subst hceq
          unfold specRemoveDigitLines
          rw [List.reverse_nil, List.nil_append, splitLines_append_nl _ hnlds, List.map_cons,
            digitLineF_digits (fun x hx => hds x (List.mem_reverse.mp hx)),
            joinLines_nil_cons _ (by
              rw [hsplit, List.map_cons]
              simp)]
        · rw [if_neg hc]
          by_cases hd : isDigitChar c = true
          · rw [if_pos hd, ihA (c :: dsRev) (by
              intro x hx
              rcases List.mem_cons.mp hx with rfl | hx
              · exact hd
              · exact hds x hx)]
            congr 1
            rw [List.reverse_cons, List.append_assoc]
            rfl
          · rw [if_neg hd, ihB]
            have hd' : isDigitChar c = false := by simpa using hd
            have hsplit2 : splitLines (c :: cs) = (c :: ln) :: lns := by
              rw [splitLines, if_neg hc, hsplit]
            rw [keepFirstLine_eq cs ln lns hsplit]
            unfold specRemoveDigitLines
            rw [splitLines_prepend (c :: cs) hnlds hsplit2, List.map_cons,
              digitLineF_keep (show c ∈ dsRev.reverse ++ c :: ln by simp)
                hd',
              joinLines_prepend, joinLines_cons_char]
      · rw [removeDigitLinesGo]
        by_cases hc : (c == '\n') = true
        · rw [if_pos hc, ihA [] (by intro x hx; cases hx)]
          have hceq : c = '\n' := by simpa using hc
          subst hceq
          have hs2 : splitLines ('\n' :: cs) = [] :: (ln :: lns) := by
            rw [splitLines, if_pos (by decide), hsplit]
          rw [keepFirstLine_eq ('\n' :: cs) [] (ln :: lns) hs2,
            List.reverse_nil, List.nil_append]
          unfold specRemoveDigitLines
          rw [hsplit, joinLines_nil_cons _ (by simp)]
        · rw [if_neg hc, ihB]
          have hsplit2 : splitLines (c :: cs) = (c :: ln) :: lns := by
            rw [splitLines, if_neg hc, hsplit]
          rw [keepFirstLine_eq cs ln lns hsplit,
            keepFirstLine_eq (c :: cs) (c :: ln) lns hsplit2,
            joinLines_cons_char]

theorem removeDigitLines_spec (t : List Char) :
    removeDigitLines t = specRemoveDigitLines t := by
  have := (removeDigitLinesGo_spec t.length t (Nat.le_refl _)).1 []
    (by intro x hx; cases hx)
  unfold removeDigitLines
  rw [this]
  rfl

/-- C7: `_clean_text` coincides, on every input, with the spec's cleaning
pipeline: strip `[PAGE n]` markers, collapse every run of 3 or more newlines
to exactly 2, collapse every run of 2 or more spaces to 1, erase every line
consisting purely of digits, then trim surrounding whitespace. -/
theorem claim_C7 (t : List Char) : clean_text t = specCleanPipeline t := by
  simp only [clean_text, specCleanPipeline]
  rw [collapseNewlines_spec, collapseSpaces_spec, removeDigitLines_spec]

theorem extract_sources_spec (msgs : List (Option (List RetrievedDoc))) :
    extract_sources msgs = ((msgs.filterMap id).flatten).map toSourceDocument := by
  suffices h : ∀ (ms : List (Option (List RetrievedDoc))) (acc : List SourceDocument),
      List.foldl
        (fun sources msg =>
          match msg with
          | none => sources
          | some [] => sources
          | some docs => sources ++ docs.map toSourceDocument)
        acc ms = acc ++ ((ms.filterMap id).flatten).map toSourceDocument by
    simpa [extract_sources] using h msgs []
  intro ms
  induction ms with
  | nil => intro acc; simp
  | cons m rest ih =>
    intro acc
    cases m with
    | none =>
      rw [List.foldl_cons]
      simp only [List.filterMap_cons]
      exact ih acc
    | some docs =>
      cases docs with
      | nil =>
        rw [List.foldl_cons, ih]
        simp [List.filterMap_cons]
      | cons d ds =>
        rw [List.foldl_cons, ih]
        simp [List.filterMap_cons, List.append_assoc]

/-- C8 counterexample: the same retrieved chunk returned by two retrieval
steps is emitted twice — `_extract_sources` performs no deduplication, so the
sources list is not duplicate-free. -/
theorem claim_C8_counterexample :
    (extract_sources [some [exampleRetrievedDoc], some [exampleRetrievedDoc]]).length = 2 ∧
      ¬ (extract_sources [some [exampleRetrievedDoc],
          some [exampleRetrievedDoc]]).Nodup := by
  constructor
  · decide
  · decide

/-- C8 (amended): the sources field is the concatenation, in first-seen order
with duplicates retained, of the chunk lists of every retrieval step of the
invocation, each content truncated to a 500-character preview (3 more for the
ellipsis); it is non-empty whenever some retrieval step returned at least one
document. -/
theorem claim_C8 :
    (∀ msgs, extract_sources msgs = ((msgs.filterMap id).flatten).map toSourceDocument) ∧
    (∀ (msgs : List (Option (List RetrievedDoc))) (docs : List RetrievedDoc),
        docs ∈ msgs.filterMap id → docs ≠ [] → extract_sources msgs ≠ []) ∧
    (∀ s : List Char, (sourcePreview s).length ≤ 503 ∧
        (s.length ≤ 500 → sourcePreview s = s)) := by
  refine ⟨extract_sources_spec, ?_, ?_⟩
  · intro msgs docs hmem hne
    rw [extract_sources_spec]
    obtain ⟨d, hd⟩ := List.exists_mem_of_ne_nil docs hne
    have hdf : d ∈ (msgs.filterMap id).flatten :=
      List.mem_flatten.mpr ⟨docs, hmem, hd⟩
    exact List.ne_nil_of_mem (List.mem_map_of_mem toSourceDocument hdf)
  · intro s
    constructor
    · unfold sourcePreview
      by_cases hl : 500 < s.length
      · rw [if_pos hl]
        simp only [List.length_append, List.length_take, List.length_cons,
          List.length_nil]
        omega
      · rw [if_neg hl]
        omega
    · intro hs
      unfold sourcePreview
      rw [if_neg (by omega)]

/-- Witness for C8's amended statement: one retrieval step with one document
gives non-empty sources, and a short content is kept untruncated. -/
theorem claim_C8_witness :
    extract_sources [some [exampleRetrievedDoc]] ≠ [] ∧
      sourcePreview "Article 1: contenu".toList = "Article 1: contenu".toList :=
  ⟨claim_C8.2.1 [some [exampleRetrievedDoc]] [exampleRetrievedDoc] (by decide)
      (by decide),
   (claim_C8.2.2 "Article 1: contenu".toList).2 (by decide)⟩

/-- C9: `create_index_if_not_exists` is idempotent: after one call, a second
call with identical parameters reports "already exists" (the create path does
not run), leaves the client state exactly as the first call left it, never
destroys existing indexes (the old state is a prefix of the new), and across
the two calls the index creation runs at most once. -/
theorem claim_C9 (st : List PineconeIndex) (index_name : List Char) (dimension : Nat)
    (metric cloud region : List Char) :
    (create_index_if_not_exists
        (create_index_if_not_exists st index_name dimension metric cloud region).1
        index_name dimension metric cloud region).2 = false ∧
    (create_index_if_not_exists
        (create_index_if_not_exists st index_name dimension metric cloud region).1
        index_name dimension metric cloud region).1 =
      (create_index_if_not_exists st index_name dimension metric cloud region).1 ∧
    st <+: (create_index_if_not_exists st index_name dimension metric cloud region).1 ∧
    ((create_index_if_not_exists st index_name dimension metric cloud region).2 = false ∨
      (create_index_if_not_exists
        (create_index_if_not_exists st index_name dimension metric cloud region).1
        index_name dimension metric cloud region).2 = false) := by
  have hpos : ∀ s : List PineconeIndex, index_name ∈ list_indexes s →
      create_index_if_not_exists s index_name dimension metric cloud region = (s, false) := by
    intro s hs
    unfold create_index_if_not_exists
    rw [if_pos hs]
  have hneg : ∀ s : List PineconeIndex, index_name ∉ list_indexes s →
      create_index_if_not_exists s index_name dimension metric cloud region =
        (create_index s ⟨index_name, dimension, metric, cloud, region⟩, true) := by
    intro s hs
    unfold create_index_if_not_exists
    rw [if_neg hs]
  have hmem : index_name ∈ list_indexes
      (create_index_if_not_exists st index_name dimension metric cloud region).1 := by
    by_cases hin : index_name ∈ list_indexes st
    · rw [hpos st hin]
      exact hin
    · rw [hneg st hin]
      unfold list_indexes create_index
      rw [List.map_append]
      simp
  have hsecond : create_index_if_not_exists
      (create_index_if_not_exists st index_name dimension metric cloud region).1
      index_name dimension metric cloud region =
      ((create_index_if_not_exists st index_name dimension metric cloud region).1, false) :=
    hpos _ hmem
  refine ⟨by rw [hsecond], by rw [hsecond], ?_, Or.inr (by rw [hsecond])⟩
  by_cases hin : index_name ∈ list_indexes st
  · rw [hpos st hin]
  · rw [hneg st hin]
    exact ⟨_, rfl⟩

/-- C10 counterexample: a request that supplies the empty string as
`thread_id` does not get it echoed back — Python's `or` treats `""` as
falsy, so a fresh UUID is returned instead of the supplied value. -/
theorem claim_C10_counterexample :
    resolve_thread_id (some []) "generated-uuid".toList = "generated-uuid".toList ∧
      "generated-uuid".toList ≠ ([] : List Char) := by
  constructor
  · rfl
  · decide

/-- C10 (amended): a supplied non-empty `thread_id` is threaded through
unchanged into the response; an absent (`None`) — or empty — `thread_id`
makes the response carry the freshly generated UUID. -/
theorem claim_C10 :
    (∀ (t fresh : List Char), t ≠ [] → resolve_thread_id (some t) fresh = t) ∧
    (∀ fresh : List Char, resolve_thread_id none fresh = fresh) ∧
    (∀ fresh : List Char, resolve_thread_id (some []) fresh = fresh) := by
  refine ⟨?_, fun fresh => rfl, fun fresh => rfl⟩
  intro t fresh ht
  show (if t.isEmpty = true then fresh else t) = t
  rw [if_neg (by simpa [List.isEmpty_iff] using ht)]

/-- Witness for C10's amended statement at concrete ids. -/
theorem claim_C10_witness :
    resolve_thread_id (some "abc".toList) "u-1".toList = "abc".toList ∧
      resolve_thread_id none "u-1".toList = "u-1".toList ∧
      resolve_thread_id (some []) "u-1".toList = "u-1".toList :=
  ⟨claim_C10.1 "abc".toList "u-1".toList (by decide),
   claim_C10.2.1 "u-1".toList,
   claim_C10.2.2 "u-1".toList⟩
